import Mathlib

/-!
Verification model of the gvfs mount-specification core (gmountspec.c).

C strings are modelled as `List Char` (NUL-free, byte order coincides with
code-point order on UTF-8). A `NULL` string pointer is modelled by `Option`.
Definitions follow the C source function by function; spec-side reference
definitions used for refinement claims are clearly marked.
-/

/-- Model of `strcmp(a, b) < 0`: byte-wise lexicographic order on strings. -/
def strcmpLt : List Char → List Char → Bool
  | [], [] => false
  | [], _ :: _ => true
  | _ :: _, [] => false
  | a :: as, b :: bs =>
    if a.toNat < b.toNat then true
    else if b.toNat < a.toNat then false
    else strcmpLt as bs

/-- Model of `strcmp(a, b) <= 0`. -/
def strcmpLe (a b : List Char) : Bool := ! strcmpLt b a

/-- One key/value entry of a mount spec (`GMountSpecItem`). -/
structure GMountSpecItem where
  key : List Char
  value : List Char
deriving DecidableEq

/-- Strict key order induced by `item_compare` (which compares items by
`strcmp` on their keys). -/
def itemLt (a b : GMountSpecItem) : Prop := strcmpLt a.key b.key = true

/-- Weak key order induced by `item_compare` (ties allowed). -/
def itemLe (a b : GMountSpecItem) : Prop := strcmpLe a.key b.key = true

instance : DecidableRel itemLt := fun a b => instDecidableEqBool (strcmpLt a.key b.key) true

instance : DecidableRel itemLe := fun a b => instDecidableEqBool (strcmpLe a.key b.key) true

/-- Model of `g_array_sort (items, item_compare)`: sort the item array by
key (a stable insertion sort; the C `qsort` ordering is unspecified on
equal keys, and every theorem below that depends on the order of equal
keys assumes there are none). -/
def sortItems (l : List GMountSpecItem) : List GMountSpecItem :=
  List.insertionSort itemLe l

/-- The content of a `GMountSpec`: the item store and the mount prefix
(`mount_prefix` in C, an optionally-NULL string). The `ref_count` and
`is_unique` bookkeeping fields are modelled separately where needed. -/
structure GMountSpec where
  items : List GMountSpecItem
  mount_pre : Option (List Char)
deriving DecidableEq

/-- Model of `items_equal`: index-wise comparison of the two item arrays
(`strcmp` on keys and on values after a length check). -/
def items_equal : List GMountSpecItem → List GMountSpecItem → Bool
  | [], [] => true
  | a :: as, b :: bs => a.key = b.key && a.value = b.value && items_equal as bs
  | _, _ => false

/-- Model of `g_mount_spec_equal`: the item stores are item-wise equal and
the mount prefixes are both NULL, or both non-NULL and `strcmp`-equal (the
C pointer-equality shortcut is subsumed by content equality). -/
def g_mount_spec_equal (m1 m2 : GMountSpec) : Bool :=
  items_equal m1.items m2.items &&
    match m1.mount_pre, m2.mount_pre with
    | none, none => true
    | some a, some b => a = b
    | _, _ => false

/-- Model of GLib `g_str_hash` (djb: `h = h*33 + byte` starting from 5381,
on an unsigned 32-bit accumulator). Multibyte UTF-8 and signed-char
details are abstracted to the code point; only determinism is used. -/
def g_str_hash (s : List Char) : Nat :=
  s.foldl (fun h c => (h * 33 + c.toNat) % 2 ^ 32) 5381

/-- Model of `g_mount_spec_hash`: XOR of the prefix string hash (when the
prefix is non-NULL) with the string hashes of the item values. -/
def g_mount_spec_hash (mount : GMountSpec) : Nat :=
  let h0 : Nat := match mount.mount_pre with
    | none => 0
    | some p => Nat.xor 0 (g_str_hash p)
  mount.items.foldl (fun h item => Nat.xor h (g_str_hash item.value)) h0

/-- Model of `path_has_prefix (path, prefix)` from gmountspec.c: NULL
prefix always matches; otherwise `strncmp (path, prefix, prefix_len) == 0`
(the first `prefix_len` characters of `path` are exactly `prefix`) and
either the prefix is empty, or it ends in a slash, or the character of
`path` after the matched prefix is the terminator or a slash. -/
def path_has_pre (path : List Char) (pre : Option (List Char)) : Bool :=
  match pre with
  | none => true
  | some pre =>
    let prefix_len := pre.length
    decide (path.take prefix_len = pre) &&
      (decide (prefix_len = 0) ||
       decide (pre.getLast? = some '/') ||
       decide (path.length = prefix_len) ||
       decide (path.get? prefix_len = some '/'))

/-- Model of `g_mount_spec_match_with_path`. -/
def g_mount_spec_match_with_path (mount spec : GMountSpec) (path : List Char) : Bool :=
  items_equal mount.items spec.items && path_has_pre path mount.mount_pre

/-- Model of `g_mount_spec_set_with_len`'s item update: replace the value
of the first item with this key, keeping the array order. -/
def replaceFirstVal : List GMountSpecItem → List Char → List Char → List GMountSpecItem
  | [], _, _ => []
  | it :: rest, key, v =>
    if it.key = key then { key := it.key, value := v } :: rest
    else it :: replaceFirstVal rest key v

/-- Model of `g_mount_spec_set_with_len`: if the key exists its value is
replaced in place; otherwise the item is appended (`add_item`) and the
whole array re-sorted by key. `value_len = -1` (here `none`) copies the
whole value, otherwise the first `value_len` characters. -/
def g_mount_spec_set_with_len (spec : GMountSpec) (key value : List Char)
    (value_len : Option Nat) : GMountSpec :=
  let value_copy := match value_len with
    | none => value
    | some n => value.take n
  if spec.items.any (fun it => it.key = key) then
    { spec with items := replaceFirstVal spec.items key value_copy }
  else
    { spec with items := sortItems (spec.items ++ [⟨key, value_copy⟩]) }

/-- Model of `g_mount_spec_set`. -/
def g_mount_spec_set (spec : GMountSpec) (key value : List Char) : GMountSpec :=
  g_mount_spec_set_with_len spec key value none

/-- Model of `g_mount_spec_new`: empty store, prefix `"/"`, optionally a
seeded `"type"` item. -/
def g_mount_spec_new (type? : Option (List Char)) : GMountSpec :=
  let base : GMountSpec := { items := [], mount_pre := some ['/'] }
  match type? with
  | none => base
  | some t => g_mount_spec_set base "type".data t

/-- Model of `g_mount_spec_new_from_data`: takes an already-built
(possibly unsorted) item array and a prefix (NULL defaults to `"/"`), and
sorts the items by key. -/
def g_mount_spec_new_from_data (items : List GMountSpecItem)
    (mount_pre : Option (List Char)) : GMountSpec :=
  { items := sortItems items
    mount_pre := some (mount_pre.getD ['/']) }

/-- Uppercase hex digit for a value below 16, as used by GLib's
`g_string_append_uri_escaped` ("0123456789ABCDEF"). -/
def hexUp (n : Nat) : Char :=
  if n < 10 then Char.ofNat (48 + n) else Char.ofNat (55 + n)

/-- Characters GLib leaves unescaped for
`g_uri_escape_string (s, NULL, TRUE)`: ASCII alphanumerics, `-_.~`, and
(with `allow_utf8`) non-ASCII characters. -/
def uriUnreserved (c : Char) : Bool :=
  c.isAlpha || c.isDigit || c = '-' || c = '_' || c = '.' || c = '~' || 128 ≤ c.toNat

/-- Percent-escape one character. -/
def escapeChar (c : Char) : List Char :=
  if uriUnreserved c then [c]
  else ['%', hexUp (c.toNat / 16), hexUp (c.toNat % 16)]

/-- Model of `g_uri_escape_string (s, NULL, TRUE)`. -/
def uriEscape (s : List Char) : List Char := s.flatMap escapeChar

/-- Is this character an ASCII hex digit. -/
def isHexDigit (c : Char) : Bool :=
  (48 ≤ c.toNat && c.toNat ≤ 57) || (65 ≤ c.toNat && c.toNat ≤ 70) ||
    (97 ≤ c.toNat && c.toNat ≤ 102)

/-- Numeric value of an ASCII hex digit. -/
def hexVal (c : Char) : Nat :=
  if c.toNat ≤ 57 then c.toNat - 48
  else if c.toNat ≤ 70 then c.toNat - 55
  else c.toNat - 87

/-- Model of `g_uri_unescape_string (s, NULL)`: each `%XY` with two hex
digits decodes to the corresponding character. (On a malformed escape the
GLib call returns NULL and the C caller's behaviour is undefined; the
model keeps the `%` literally, and no theorem depends on that case.) -/
def uriUnescape : List Char → List Char
  | [] => []
  | '%' :: a :: b :: r2 =>
    if isHexDigit a ∧ isHexDigit b then
      Char.ofNat (hexVal a * 16 + hexVal b) :: uriUnescape r2
    else '%' :: uriUnescape (a :: b :: r2)
  | c :: r => c :: uriUnescape r

/-- Standard single-character split: `splitChar d s` cuts `s` at every
occurrence of `d` (an empty input gives one empty token). -/
def splitChar (d : Char) : List Char → List (List Char)
  | [] => [[]]
  | c :: r =>
    let res := splitChar d r
    if c = d then [] :: res else (c :: res.headI) :: res.tail

/-- Model of `g_strsplit (s, d, 0)` for a one-character delimiter: like
`splitChar`, except that an empty input yields no tokens at all. -/
def gSplit (d : Char) (l : List Char) : List (List Char) :=
  if l = [] then [] else splitChar d l

/-- The reserved pseudo-key `"__mount_prefix"` of the text codec. -/
def mountPreKey : List Char := "__mount_prefix".data

/-- Model of `g_mount_spec_to_string`: each item in array order is emitted
as `escaped_key=escaped_value,`, then the pseudo-entry
`__mount_prefix=escaped_prefix` without a trailing comma. (For a NULL
mount prefix the C code hands NULL to `g_uri_escape_string`/`printf`,
which has no defined result; the model emits the empty string there and
no theorem depends on that case.) -/
def g_mount_spec_to_string (spec : GMountSpec) : List Char :=
  (spec.items.flatMap fun it =>
      uriEscape it.key ++ '=' :: uriEscape it.value ++ [',']) ++
    uriEscape mountPreKey ++ '=' ::
      (match spec.mount_pre with
       | some p => uriEscape p
       | none => [])

/-- Errors raised by the text decoder (`G_IO_ERROR_INVALID_ARGUMENT`,
with the offending substring the C message embeds). -/
inductive SpecDecodeError where
  | invalidPair (pair : List Char)
  | missingPre (input : List Char)
deriving DecidableEq

instance {ε α : Type} [DecidableEq ε] [DecidableEq α] : DecidableEq (Except ε α) := fun a b =>
  match a, b with
  | .ok x, .ok y =>
    if h : x = y then isTrue (congrArg Except.ok h)
    else isFalse (fun hc => h (by cases hc; rfl))
  | .error x, .error y =>
    if h : x = y then isTrue (congrArg Except.error h)
    else isFalse (fun hc => h (by cases hc; rfl))
  | .ok _, .error _ => isFalse (fun hc => Except.noConfusion hc)
  | .error _, .ok _ => isFalse (fun hc => Except.noConfusion hc)

/-- The pair-processing loop of `g_mount_spec_new_from_string`: each
comma token must split on `=` into exactly two tokens, else the decode
aborts with an invalid-pair error naming the raw token; the unescaped key
`__mount_prefix` is diverted into the prefix variable (later occurrences
overwrite earlier ones), every other pair is appended to the item array. -/
def fromStringLoop :
    List (List Char) → List GMountSpecItem → Option (List Char) →
      Except SpecDecodeError (List GMountSpecItem × Option (List Char))
  | [], items, pre => .ok (items, pre)
  | pair :: rest, items, pre =>
    match gSplit '=' pair with
    | [t0, t1] =>
      let k := uriUnescape t0
      let v := uriUnescape t1
      if k = mountPreKey then fromStringLoop rest items (some v)
      else fromStringLoop rest (items ++ [⟨k, v⟩]) pre
    | _ => .error (.invalidPair pair)

/-- Model of `g_mount_spec_new_from_string`: split the input on commas,
run the pair loop, fail with a missing-prefix error naming the whole
input when no `__mount_prefix` pair was seen, and otherwise build the
spec via `g_mount_spec_new_from_data` (which sorts the items). -/
def g_mount_spec_new_from_string (str : List Char) :
    Except SpecDecodeError GMountSpec :=
  match fromStringLoop (gSplit ',' str) [] none with
  | .error e => .error e
  | .ok (_, none) => .error (.missingPre str)
  | .ok (items, some pre) => .ok (g_mount_spec_new_from_data items (some pre))

/-- Spec-side helper: the decoded (unescaped) key and value of a
well-formed `key=value` text pair. -/
def decodePair (p : List Char) : GMountSpecItem :=
  ⟨uriUnescape ((gSplit '=' p).headI), uriUnescape ((gSplit '=' p).tail.headI)⟩

/-- Spec-side helper: the decoded items of a pair list, with the
`__mount_prefix` pseudo-pairs removed. -/
def decodedItems (pairs : List (List Char)) : List GMountSpecItem :=
  (pairs.map decodePair).filter (fun it => decide (¬ it.key = mountPreKey))

/-- Spec-side helper: the value of the last `__mount_prefix` pseudo-pair
of a pair list, if any. -/
def lastPreVal (pairs : List (List Char)) : Option (List Char) :=
  (((pairs.map decodePair).filter (fun it => decide (it.key = mountPreKey))).getLast?).map
    GMountSpecItem.value

/-- D-Bus wire types visible to the codec (the struct layout is
`(path: C-string, items: array<struct<key: string, value: C-string>>)`). -/
inductive DBusType where
  | tString
  | tCString
  | tStruct
  | tOther
deriving DecidableEq

/-- A D-Bus message element as consumed/produced by the codec: a standard
length-prefixed string, the byte-array "C-string" variant, a struct of
fields, or an array carrying its declared element type. -/
inductive DBusValue where
  | str : List Char → DBusValue
  | cstr : List Char → DBusValue
  | strct : List DBusValue → DBusValue
  | array : DBusType → List DBusValue → DBusValue

/-- Is this wire element a struct (the loop condition
`dbus_message_iter_get_arg_type (&array_iter) == DBUS_TYPE_STRUCT`). -/
def isStructVal : DBusValue → Bool
  | .strct _ => true
  | _ => false

/-- Reading one `(key: string, value: C-string)` entry out of an item
struct (`_g_dbus_message_iter_get_args`); fields after the two read ones
are ignored, anything else fails. -/
def readItemStruct : DBusValue → Option GMountSpecItem
  | .strct (.str k :: .cstr v :: _) => some ⟨k, v⟩
  | _ => none

/-- Model of `g_mount_spec_to_dbus_with_path`: a struct of the path as a
C-string followed by an array (declared element type struct) of
`(key, value)` structs in item order. -/
def g_mount_spec_to_dbus_with_path (spec : GMountSpec) (path : List Char) : DBusValue :=
  .strct [.cstr path,
          .array .tStruct (spec.items.map fun it => .strct [.str it.key, .cstr it.value])]

/-- Model of `g_mount_spec_to_dbus`: the path field is the spec's own
mount prefix, or the empty string when the prefix is NULL. -/
def g_mount_spec_to_dbus (spec : GMountSpec) : DBusValue :=
  g_mount_spec_to_dbus_with_path spec (spec.mount_pre.getD [])

/-- Model of `g_mount_spec_from_dbus`: the element must be a struct whose
first field is a C-string (the mount prefix) and whose second field is an
array with declared element type struct; the entry loop runs while the
next array element is a struct, silently skipping entries whose fields do
not read as `(string, C-string)`; the item array is sorted by key at the
end. Any shape violation yields no spec (NULL). -/
def g_mount_spec_from_dbus (v : DBusValue) : Option GMountSpec :=
  match v with
  | .strct (.cstr mount_pre :: .array .tStruct elems :: _) =>
    let items := (elems.takeWhile isStructVal).filterMap readItemStruct
    some { items := sortItems items, mount_pre := some mount_pre }
  | _ => none

/-- A mount-spec instance for the canonical-registry model: a heap
identity (`id`), the content, and the `is_unique` flag of the C struct. -/
structure SpecInst where
  id : Nat
  content : GMountSpec
  is_unique : Bool
deriving DecidableEq

/-- Model of `g_mount_spec_get_unique_for` (sequential): an already-unique
spec is returned as-is (a new reference to the same instance); otherwise
the registry (`unique_hash`, a hash table keyed by spec equality) is
searched for a content-equal entry; on a miss the argument is marked
unique, inserted and returned, on a hit the existing representative is
returned and the registry is unchanged. Returns the result instance and
the updated registry. -/
def g_mount_spec_get_unique_for (registry : List SpecInst) (spec : SpecInst) :
    SpecInst × List SpecInst :=
  if spec.is_unique then (spec, registry)
  else
    match registry.find? (fun u => g_mount_spec_equal u.content spec.content) with
    | some u => (u, registry)
    | none =>
      let spec2 := { spec with is_unique := true }
      (spec2, spec2 :: registry)

/-- Run a sequence of `g_mount_spec_get_unique_for` calls, threading the
registry. -/
def runUniqueCalls (registry : List SpecInst) : List SpecInst → List SpecInst
  | [] => registry
  | s :: rest => runUniqueCalls (g_mount_spec_get_unique_for registry s).2 rest

/-- Well-formedness of the canonical registry: entries are pairwise
content-inequal (at most one representative per equality class) and every
entry has its `is_unique` flag set. -/
def RegistryWF (reg : List SpecInst) : Prop :=
  reg.Pairwise (fun a b => g_mount_spec_equal a.content b.content = false) ∧
    ∀ u ∈ reg, u.is_unique = true

/-- Index of the first `/` at or after the scan position, relative to the
given suffix (the C loop `while (*p != 0 && *p != '/') p++`). -/
def findSlash : List Char → Nat
  | [] => 0
  | c :: r => if c = '/' then 0 else findSlash r + 1

/-- The `..`-handling backtrack of `g_mount_spec_canonicalize_path`:
`while (p > start && *p != '/') p--` with `start = canon + 1`, on
positions into the buffer. -/
def backtrack (buf : List Char) : Nat → Nat
  | 0 => 0
  | p + 1 =>
    if 1 < p + 1 ∧ ¬ buf.getD (p + 1) ' ' = '/' then backtrack buf p
    else p + 1

/-- The duplicate-separator removal run after every branch of the loop:
drop the slashes starting at position `p` (`q = p; while (*q == '/') q++;
memmove`). -/
def collapseAt (buf : List Char) (p : Nat) : List Char :=
  buf.take p ++ (buf.drop p).dropWhile (fun c => c = '/')

/-- The scanning loop of `g_mount_spec_canonicalize_path`, on the buffer
and the scan position `p` (`start` is index 1). The three branches mirror
the C code: a standalone `.` segment is deleted in place, a standalone
`..` segment is deleted together with the segment the backtrack finds,
and an ordinary segment is skipped up to and including its separator;
each branch then collapses duplicate separators at the new position. The
fuel argument only bounds the iteration count; `buf.length` iterations
always suffice because `buf.length - p` strictly decreases (proved via
the loop lemmas below). -/
def canonLoop : Nat → List Char → Nat → List Char
  | 0, buf, _ => buf
  | fuel + 1, buf, p =>
    if p < buf.length then
      let c := buf.getD p ' '
      if c = '.' ∧ (buf.length ≤ p + 1 ∨ buf.getD (p + 1) ' ' = '/') then
        canonLoop fuel (collapseAt (buf.take p ++ buf.drop (p + 1)) p) p
      else if c = '.' ∧ buf.getD (p + 1) ' ' = '.' ∧
          (buf.length ≤ p + 2 ∨ buf.getD (p + 2) ' ' = '/') then
        let p1 := backtrack buf (max 1 (p - 2))
        let p2 := if buf.getD p1 ' ' = '/' then p1 + 1 else p1
        canonLoop fuel (collapseAt (buf.take p2 ++ buf.drop (p + 2)) p2) p2
      else
        let p1 := p + findSlash (buf.drop p)
        let p2 := if p1 < buf.length then p1 + 1 else p1
        canonLoop fuel (collapseAt buf p2) p2
    else buf

/-- The trailing-separator removal of `g_mount_spec_canonicalize_path`
(`if (p > start && *(p-1) == '/') *(p-1) = 0`, the final position always
being the end of the buffer). -/
def stripTrail (res : List Char) : List Char :=
  if 1 < res.length ∧ res.getLast? = some '/' then res.dropLast else res

/-- Model of `g_mount_spec_canonicalize_path`: prepend a `/` when the
input does not start with one, run the scanning loop from position 1, and
strip a single trailing slash. -/
def g_mount_spec_canonicalize_path (path : List Char) : List Char :=
  let canon := if path.head? = some '/' then path else '/' :: path
  stripTrail (canonLoop canon.length canon 1)

/-- The flattened form of the processed region of the buffer during the
scanning loop: an optional kept leading separator, then each completed
segment followed by one separator. -/
def flatSegs (lead2 : Bool) (stack : List (List Char)) : List Char :=
  ((if lead2 then [([] : List Char)] else []) ++ stack).flatMap (fun s => s ++ ['/'])

/-- Well-formedness of a segment on the processed stack: non-empty and
free of separators. -/
def segWF (s : List Char) : Prop := s ≠ [] ∧ '/' ∉ s

/-- Spec-side reference for the canonicalizer (stated from the spec's
words, for the refinement claims): split the input after the leading
slash into segments. -/
def splitNE (l : List Char) : List (List Char) :=
  if h : l = [] then []
  else if l.head? = some '/' then splitNE (l.dropWhile (fun c => c = '/'))
  else l.takeWhile (fun c => ¬ c = '/') ::
    splitNE (l.dropWhile (fun c => ¬ c = '/'))
termination_by l.length
decreasing_by
  · cases l with
    | nil => simp at h
    | cons c r =>
      rename_i hh
      simp only [List.head?_cons, Option.some.injEq] at hh
      subst hh
      have h1 : ('/' :: r).dropWhile (fun c => c = '/') = r.dropWhile (fun c => c = '/') := by
        simp [List.dropWhile_cons_of_pos]
      rw [h1]
      exact Nat.lt_succ_of_le (List.Sublist.length_le (List.dropWhile_sublist _))
  · cases l with
    | nil => simp at h
    | cons c r =>
      rename_i hh
      have hc : ¬ c = '/' := by
        intro he
        exact hh (by simp [he])
      have h1 : (c :: r).dropWhile (fun c => ¬ c = '/') = r.dropWhile (fun c => ¬ c = '/') := by
        simp [List.dropWhile_cons_of_pos, hc]
      rw [h1]
      exact Nat.lt_succ_of_le (List.Sublist.length_le (List.dropWhile_sublist _))

/-- Spec-side reference: process the segment list against a stack — `.`
is dropped, `..` pops the latest segment (clamped at the bottom), any
other segment is pushed. -/
def specStack (stack : List (List Char)) : List (List Char) → List (List Char)
  | [] => stack
  | s :: ss =>
    if s = ['.'] then specStack stack ss
    else if s = ['.', '.'] then specStack stack.dropLast ss
    else specStack (stack ++ [s]) ss

/-- Spec-side reference: segments joined by single separators. -/
def joinSlash : List (List Char) → List Char
  | [] => []
  | [s] => s
  | s :: s2 :: rest => s ++ '/' :: joinSlash (s2 :: rest)

/-- Spec-side reference: assemble the final path from the kept segments;
`lead2` records that the part after the mandatory leading slash itself
began with a slash (the one separator the loop keeps from a leading run). -/
def assemblePath (lead2 : Bool) (stack : List (List Char)) : List Char :=
  if stack = [] then ['/']
  else ['/'] ++ (if lead2 then ['/'] else ([] : List Char)) ++ joinSlash stack

/-- Spec-side reference for `g_mount_spec_canonicalize_path` as the spec
describes it (with the leading-double-slash behaviour the code actually
has): force a leading slash, note whether a second leading slash follows,
and fold the remaining non-empty segments through the `.`/`..` stack. -/
def canonSpecPath (path : List Char) : List Char :=
  let rest := (if path.head? = some '/' then path else '/' :: path).tail
  let lead2 := rest.head? = some '/'
  let segs := splitNE (rest.dropWhile (fun c => c = '/'))
  assemblePath lead2 (specStack [] segs)

/-- Does the string contain two adjacent slashes. -/
def hasDoubleSlash : List Char → Bool
  | [] => false
  | [_] => false
  | a :: b :: r => (a = '/' && b = '/') || hasDoubleSlash (b :: r)

theorem strcmpLt_irrefl : ∀ a : List Char, strcmpLt a a = false
  | [] => rfl
  | c :: r => by
    simp only [strcmpLt, Nat.lt_irrefl, if_false]
    exact strcmpLt_irrefl r

theorem strcmpLt_trans : ∀ a b c : List Char,
    strcmpLt a b = true → strcmpLt b c = true → strcmpLt a c = true
  | [], [], _, hab, _ => by simp [strcmpLt] at hab
  | [], _ :: _, [], _, hbc => by simp [strcmpLt] at hbc
  | [], _ :: _, _ :: _, _, _ => rfl
  | _ :: _, [], _, hab, _ => by simp [strcmpLt] at hab
  | _ :: _, _ :: _, [], _, hbc => by simp [strcmpLt] at hbc
  | a :: as, b :: bs, c :: cs, hab, hbc => by
    simp only [strcmpLt] at hab hbc ⊢
    rcases Nat.lt_trichotomy a.toNat b.toNat with h1 | h1 | h1
    · rcases Nat.lt_trichotomy b.toNat c.toNat with h2 | h2 | h2
      · simp [Nat.lt_trans h1 h2]
      · simp [h2 ▸ h1]
      · simp [h1, Nat.lt_asymm h1] at hab
        simp [Nat.lt_asymm h2, h2] at hbc
    · rcases Nat.lt_trichotomy b.toNat c.toNat with h2 | h2 | h2
      · simp [h1 ▸ h2]
      · have h3 : a.toNat = c.toNat := h1.trans h2
        simp [h1, Nat.lt_irrefl, h2, h3] at hab hbc ⊢
        exact strcmpLt_trans as bs cs hab hbc
      · simp [Nat.lt_asymm h2, h2] at hbc
    · simp [h1, Nat.lt_asymm h1] at hab

theorem strcmpLt_eq_of_both_false : ∀ a b : List Char,
    strcmpLt a b = false → strcmpLt b a = false → a = b
  | [], [], _, _ => rfl
  | [], _ :: _, hab, _ => by simp [strcmpLt] at hab
  | _ :: _, [], _, hba => by simp [strcmpLt] at hba
  | a :: as, b :: bs, hab, hba => by
    simp only [strcmpLt] at hab hba
    rcases Nat.lt_trichotomy a.toNat b.toNat with h1 | h1 | h1
    · simp [h1] at hab
    · have hc : a = b := Char.ext (UInt32.ext h1)
      subst hc
      simp only [Nat.lt_irrefl, if_false] at hab hba
      rw [strcmpLt_eq_of_both_false as bs hab hba]
    · simp [h1, Nat.lt_asymm h1] at hba

theorem strcmpLt_asymm {a b : List Char} (h : strcmpLt a b = true) :
    strcmpLt b a = false := by
  by_cases h2 : strcmpLt b a = true
  · have h3 := strcmpLt_trans _ _ _ h h2
    rw [strcmpLt_irrefl] at h3
    exact absurd h3 (by simp)
  · simpa using h2

theorem itemLe_total : ∀ a b : GMountSpecItem, itemLe a b ∨ itemLe b a := by
  intro a b
  by_cases h : strcmpLt b.key a.key = true
  · right
    simp [itemLe, strcmpLe, strcmpLt_asymm h]
  · left
    simp only [Bool.not_eq_true] at h
    simp [itemLe, strcmpLe, h]

theorem itemLe_trans : ∀ a b c : GMountSpecItem, itemLe a b → itemLe b c → itemLe a c := by
  intro a b c hab hbc
  simp only [itemLe, strcmpLe, Bool.not_eq_true'] at hab hbc ⊢
  by_cases hca : strcmpLt c.key a.key = true
  · by_cases hab2 : strcmpLt a.key b.key = true
    · have h3 := strcmpLt_trans _ _ _ hca hab2
      rw [h3] at hbc
      simp at hbc
    · simp only [Bool.not_eq_true] at hab2
      have h3 : a.key = b.key := strcmpLt_eq_of_both_false _ _ hab2 hab
      rw [← h3, hca] at hbc
      simp at hbc
  · simpa [Bool.not_eq_true] using hca

theorem itemLe_of_not_lt {a b : GMountSpecItem} (h : ¬ itemLt b a) : itemLe a b := by
  simp only [itemLt, Bool.not_eq_true] at h
  simp [itemLe, strcmpLe, h]

theorem itemLt_of_le_of_ne {a b : GMountSpecItem} (hle : itemLe a b)
    (hne : a.key ≠ b.key) : itemLt a b := by
  simp only [itemLe, strcmpLe, Bool.not_eq_true'] at hle
  by_cases h : strcmpLt a.key b.key = true
  · exact h
  · simp only [Bool.not_eq_true] at h
    exact absurd (strcmpLt_eq_of_both_false _ _ h hle) hne

theorem sortItems_sorted (l : List GMountSpecItem) : (sortItems l).Sorted itemLe := by
  haveI : IsTotal GMountSpecItem itemLe := ⟨itemLe_total⟩
  haveI : IsTrans GMountSpecItem itemLe := ⟨itemLe_trans⟩
  exact List.sorted_insertionSort itemLe l

theorem sortItems_perm (l : List GMountSpecItem) : List.Perm (sortItems l) l :=
  List.perm_insertionSort itemLe l

theorem sortItems_eq_self {l : List GMountSpecItem} (h : l.Sorted itemLe) :
    sortItems l = l :=
  List.Sorted.insertionSort_eq h

theorem sorted_le_of_lt {l : List GMountSpecItem} (h : l.Sorted itemLt) :
    l.Sorted itemLe :=
  h.imp (fun hab => itemLe_of_not_lt (fun hba => by
    have h1 := strcmpLt_trans _ _ _ hab hba
    rw [strcmpLt_irrefl] at h1
    simp at h1))

theorem sorted_lt_of_le_nodup {l : List GMountSpecItem} (hle : l.Sorted itemLe)
    (hnd : (l.map GMountSpecItem.key).Nodup) : l.Sorted itemLt := by
  have hp : l.Pairwise (fun a b => a.key ≠ b.key) := List.pairwise_map.mp hnd
  exact (hle.and hp).imp (fun h => itemLt_of_le_of_ne h.1 h.2)

theorem take_len_eq_iff {pre path : List Char} :
    path.take pre.length = pre ↔ ∃ t, path = pre ++ t := by
  constructor
  · intro h
    refine ⟨path.drop pre.length, ?_⟩
    conv_lhs => rw [← List.take_append_drop pre.length path]
    rw [h]
  · rintro ⟨t, rfl⟩
    exact List.take_left pre t

/-- Claim C1 (corrected): `path_has_prefix (path, prefix)` is true when
`prefix` is NULL; otherwise it is true iff `path` starts with the literal
bytes of `prefix` and additionally the prefix is empty, or its last
character is `/`, or the character of `path` right after the matched
prefix is the string end or `/`. The listed examples hold except that
`path_has_prefix ("/foo", "/foo/")` is false (the terminator of the
shorter path fails the `strncmp`), not true as claimed. -/
theorem claim_C1_theorem :
    (∀ path, path_has_pre path none = true) ∧
    (∀ path pre, path_has_pre path (some pre) = true ↔
      ((∃ t, path = pre ++ t) ∧
        (pre = [] ∨ pre.getLast? = some '/' ∨ path.length = pre.length ∨
          path.get? pre.length = some '/'))) ∧
    path_has_pre "/foo/bar".data (some "/foo".data) = true ∧
    path_has_pre "/foobar".data (some "/foo".data) = false ∧
    path_has_pre "/foo".data (some "/foo/".data) = false ∧
    (∀ path, path_has_pre path (some []) = true)
    := by
  refine ⟨fun _ => rfl, ?_, by decide, by decide, by decide, ?_⟩
  · intro path pre
    simp only [path_has_pre, Bool.and_eq_true, Bool.or_eq_true, decide_eq_true_eq,
      take_len_eq_iff, List.length_eq_zero]
    tauto
  · intro path
    simp [path_has_pre]

/-- Claim C1 counterexample: the claim states
`path_has_prefix ("/foo", "/foo/")` is true, but the code returns false
(`strncmp ("/foo", "/foo/", 5)` fails at the terminator of the path). -/
theorem claim_C1_counterexample :
    path_has_pre "/foo".data (some "/foo/".data) = false := by decide

theorem items_equal_iff : ∀ a b : List GMountSpecItem, items_equal a b = true ↔ a = b
  | [], [] => by simp [items_equal]
  | [], _ :: _ => by simp [items_equal]
  | _ :: _, [] => by simp [items_equal]
  | a :: as, b :: bs => by
    simp only [items_equal, Bool.and_eq_true, decide_eq_true_eq, items_equal_iff as bs,
      List.cons.injEq]
    constructor
    · rintro ⟨⟨h1, h2⟩, h3⟩
      exact ⟨by cases a; cases b; simp_all, h3⟩
    · rintro ⟨h1, h3⟩
      exact ⟨by cases h1; simp, h3⟩

theorem g_mount_spec_equal_iff (a b : GMountSpec) :
    g_mount_spec_equal a b = true ↔ a = b := by
  cases a with
  | mk ai ap =>
    cases b with
    | mk bi bp =>
      simp only [g_mount_spec_equal, Bool.and_eq_true, items_equal_iff, GMountSpec.mk.injEq]
      cases ap <;> cases bp <;> simp

theorem hash_ignores_keys (f : List Char → List Char) :
    ∀ (items : List GMountSpecItem) (h0 : Nat),
      (items.map fun it => GMountSpecItem.mk (f it.key) it.value).foldl
          (fun h item => Nat.xor h (g_str_hash item.value)) h0 =
        items.foldl (fun h item => Nat.xor h (g_str_hash item.value)) h0
  | [], _ => rfl
  | it :: rest, h0 => by
    simp only [List.map_cons, List.foldl_cons]
    exact hash_ignores_keys f rest _

/-- Claim C6 (confirmed): `g_mount_spec_equal (A, B)` implies
`g_mount_spec_hash (A) = g_mount_spec_hash (B)`; moreover the hash does
not depend on the item keys at all (only the prefix and the item values
contribute). -/
theorem claim_C6_theorem :
    (∀ a b : GMountSpec, g_mount_spec_equal a b = true →
      g_mount_spec_hash a = g_mount_spec_hash b) ∧
    (∀ (items : List GMountSpecItem) (mp : Option (List Char)) (f : List Char → List Char),
      g_mount_spec_hash ⟨items.map fun it => ⟨f it.key, it.value⟩, mp⟩ =
        g_mount_spec_hash ⟨items, mp⟩) := by
  constructor
  · intro a b h
    rw [(g_mount_spec_equal_iff a b).mp h]
  · intro items mp f
    simp only [g_mount_spec_hash]
    exact hash_ignores_keys f items _

/-- Claim C6 witness: the implication applied to two content-equal specs. -/
theorem claim_C6_witness :
    g_mount_spec_equal ⟨[⟨"type".data, "ftp".data⟩], some "/".data⟩
        ⟨[⟨"type".data, "ftp".data⟩], some "/".data⟩ = true ∧
      g_mount_spec_hash ⟨[⟨"type".data, "ftp".data⟩], some "/".data⟩ =
        g_mount_spec_hash ⟨[⟨"type".data, "ftp".data⟩], some "/".data⟩ :=
  ⟨by decide, claim_C6_theorem.1 _ _ (by decide)⟩

theorem replaceFirstVal_keys : ∀ (l : List GMountSpecItem) (k v : List Char),
    (replaceFirstVal l k v).map GMountSpecItem.key = l.map GMountSpecItem.key
  | [], _, _ => rfl
  | it :: rest, k, v => by
    simp only [replaceFirstVal]
    by_cases h : it.key = k
    · simp [h]
    · simp only [if_neg h, List.map_cons]
      rw [replaceFirstVal_keys rest k v]

theorem sorted_lt_iff_keys {l : List GMountSpecItem} :
    l.Sorted itemLt ↔ (l.map GMountSpecItem.key).Pairwise (fun a b => strcmpLt a b = true) := by
  rw [List.Sorted, List.pairwise_map]
  rfl

theorem keys_nodup_of_sorted_lt {l : List GMountSpecItem} (h : l.Sorted itemLt) :
    (l.map GMountSpecItem.key).Nodup := by
  rw [sorted_lt_iff_keys] at h
  exact h.imp (fun hab heq => by
    rw [heq, strcmpLt_irrefl] at hab
    exact Bool.false_ne_true hab)

theorem new_from_data_sorted_le (items : List GMountSpecItem) (mp : Option (List Char)) :
    (g_mount_spec_new_from_data items mp).items.Sorted itemLe :=
  sortItems_sorted items

theorem new_from_data_sorted_lt {items : List GMountSpecItem} (mp : Option (List Char))
    (hnd : (items.map GMountSpecItem.key).Nodup) :
    (g_mount_spec_new_from_data items mp).items.Sorted itemLt := by
  refine sorted_lt_of_le_nodup (sortItems_sorted items) ?_
  exact (((sortItems_perm items).map GMountSpecItem.key).nodup_iff).mpr hnd

/-- Claim C3 (corrected): `set` preserves the strict sort invariant
(strictly increasing keys, hence no duplicate keys), and the bulk
constructor and both decoders always leave the item store weakly sorted
by key; but they do not deduplicate keys, so after them the order is
strictly increasing with unique keys only when the input keys were
already pairwise distinct. -/
theorem claim_C3_theorem :
    (∀ (spec : GMountSpec) (key value : List Char), spec.items.Sorted itemLt →
      (g_mount_spec_set spec key value).items.Sorted itemLt) ∧
    (∀ (l : List GMountSpecItem), l.Sorted itemLt → (l.map GMountSpecItem.key).Nodup) ∧
    (∀ (items : List GMountSpecItem) (mp : Option (List Char)),
      (g_mount_spec_new_from_data items mp).items.Sorted itemLe) ∧
    (∀ (items : List GMountSpecItem) (mp : Option (List Char)),
      (items.map GMountSpecItem.key).Nodup →
        (g_mount_spec_new_from_data items mp).items.Sorted itemLt) ∧
    (∀ (v : DBusValue) (spec : GMountSpec), g_mount_spec_from_dbus v = some spec →
      spec.items.Sorted itemLe) ∧
    (∀ (str : List Char) (spec : GMountSpec),
      g_mount_spec_new_from_string str = .ok spec → spec.items.Sorted itemLe) := by
  refine ⟨?_, fun l h => keys_nodup_of_sorted_lt h, new_from_data_sorted_le,
    fun items mp h => new_from_data_sorted_lt mp h, ?_, ?_⟩
  · intro spec key value hs
    simp only [g_mount_spec_set, g_mount_spec_set_with_len]
    by_cases h : spec.items.any (fun it => it.key = key)
    · simp only [h, if_true]
      rw [sorted_lt_iff_keys, replaceFirstVal_keys]
      exact sorted_lt_iff_keys.mp hs
    · simp only [h, if_false]
      refine sorted_lt_of_le_nodup (sortItems_sorted _) ?_
      refine (((sortItems_perm _).map GMountSpecItem.key).nodup_iff).mpr ?_
      rw [List.map_append]
      simp only [List.map_cons, List.map_nil]
      rw [List.nodup_append]
      refine ⟨keys_nodup_of_sorted_lt hs, List.nodup_singleton _, ?_⟩
      intro a ha
      simp only [List.mem_singleton]
      intro hk
      subst hk
      simp only [List.any_eq_true, decide_eq_true_eq] at h
      rcases List.mem_map.mp ha with ⟨it, hmem, hkey⟩
      exact h ⟨it, hmem, hkey⟩
  · intro v spec h
    cases v with
    | strct fields =>
      match fields, h with
      | .cstr mp :: .array .tStruct elems :: rest, h => 
        simp only [g_mount_spec_from_dbus, Option.some.injEq] at h
        rw [← h]
        exact sortItems_sorted _
    | str s => simp [g_mount_spec_from_dbus] at h
    | cstr s => simp [g_mount_spec_from_dbus] at h
    | array t l => simp [g_mount_spec_from_dbus] at h
  · intro str spec h
    simp only [g_mount_spec_new_from_string] at h
    cases hl : fromStringLoop (gSplit ',' str) [] none with
    | error e => rw [hl] at h; exact Except.noConfusion h
    | ok res =>
      rw [hl] at h
      cases res with
      | mk items pre =>
        cases pre with
        | none => exact Except.noConfusion h
        | some p =>
          simp only [Except.ok.injEq] at h
          rw [← h]
          exact sortItems_sorted _

/-- Claim C3 counterexample: the bulk constructor
(`g_mount_spec_new_from_data`) does not deduplicate keys: built from two
items with key `a`, the store keeps both, so two items share a key and
the key order is not strictly increasing. -/
theorem claim_C3_counterexample :
    ((g_mount_spec_new_from_data [⟨['a'], ['1']⟩, ⟨['a'], ['2']⟩]
        (some ['/'])).items.map GMountSpecItem.key = [['a'], ['a']]) ∧
    ¬ ((g_mount_spec_new_from_data [⟨['a'], ['1']⟩, ⟨['a'], ['2']⟩]
        (some ['/'])).items.map GMountSpecItem.key).Nodup := by
  constructor
  · decide
  · decide

/-- Claim C3 witness: the `set` clause applied to a concrete sorted spec,
and the strict-sort clause of the bulk constructor at distinct keys. -/
theorem claim_C3_witness :
    (GMountSpec.mk [⟨"host".data, "h".data⟩, ⟨"type".data, "ftp".data⟩]
        (some ['/'])).items.Sorted itemLt ∧
    (g_mount_spec_set
        ⟨[⟨"host".data, "h".data⟩, ⟨"type".data, "ftp".data⟩], some ['/']⟩
        "user".data "alice".data).items.Sorted itemLt := by
  constructor
  · decide
  · exact claim_C3_theorem.1 _ _ _ (by decide)

theorem equal_false_of_ne {a b : GMountSpec} (h : a ≠ b) :
    g_mount_spec_equal a b = false := by
  by_cases he : g_mount_spec_equal a b = true
  · exact absurd ((g_mount_spec_equal_iff a b).mp he) h
  · simpa using he

theorem get_unique_for_wf (reg : List SpecInst) (s : SpecInst) (h : RegistryWF reg) :
    RegistryWF (g_mount_spec_get_unique_for reg s).2 := by
  simp only [g_mount_spec_get_unique_for]
  by_cases hu : s.is_unique
  · simpa [hu] using h
  · simp only [hu, if_false]
    cases hf : reg.find? (fun u => g_mount_spec_equal u.content s.content) with
    | some u => exact h
    | none =>
      have hall := List.find?_eq_none.mp hf
      refine ⟨List.Pairwise.cons ?_ h.1, ?_⟩
      · intro u hmem
        have h1 : ¬ g_mount_spec_equal u.content s.content = true := by
          simpa using hall u hmem
        refine equal_false_of_ne (fun he => h1 ?_)
        exact (g_mount_spec_equal_iff _ _).mpr he.symm
      · intro u hmem
        rcases List.mem_cons.mp hmem with h1 | h1
        · rw [h1]
        · exact h.2 u h1

/-- Claim C7 (confirmed, sequential): `g_mount_spec_get_unique_for` on an
already-unique spec returns that same instance and leaves the registry
alone; on a miss it marks the argument unique, inserts it and returns it;
on a hit it returns the existing representative unchanged. The registry
invariant (pairwise content-inequal entries, i.e. at most one canonical
instance per equality class, all flagged unique) is preserved by any
sequence of calls, and two successive calls with content-equal
non-canonical specs return the identical instance. -/
theorem claim_C7_theorem :
    (∀ (reg : List SpecInst) (s : SpecInst), s.is_unique = true →
      g_mount_spec_get_unique_for reg s = (s, reg)) ∧
    (∀ (reg : List SpecInst) (s : SpecInst), s.is_unique = false →
      reg.find? (fun u => g_mount_spec_equal u.content s.content) = none →
      g_mount_spec_get_unique_for reg s =
        ({ s with is_unique := true }, { s with is_unique := true } :: reg)) ∧
    (∀ (reg : List SpecInst) (s u : SpecInst), s.is_unique = false →
      reg.find? (fun u => g_mount_spec_equal u.content s.content) = some u →
      g_mount_spec_get_unique_for reg s = (u, reg)) ∧
    (∀ (reg : List SpecInst) (calls : List SpecInst), RegistryWF reg →
      RegistryWF (runUniqueCalls reg calls)) ∧
    (∀ (reg : List SpecInst) (s1 s2 : SpecInst),
      s1.is_unique = false → s2.is_unique = false →
      g_mount_spec_equal s1.content s2.content = true →
      (g_mount_spec_get_unique_for (g_mount_spec_get_unique_for reg s1).2 s2).1 =
        (g_mount_spec_get_unique_for reg s1).1) := by
  refine ⟨?_, ?_, ?_, ?_, ?_⟩
  · intro reg s h
    simp [g_mount_spec_get_unique_for, h]
  · intro reg s h hf
    simp [g_mount_spec_get_unique_for, h, hf]
  · intro reg s u h hf
    simp [g_mount_spec_get_unique_for, h, hf]
  · intro reg calls
    induction calls generalizing reg with
    | nil => exact fun h => h
    | cons c rest ih =>
      intro h
      exact ih _ (get_unique_for_wf reg c h)
  · intro reg s1 s2 h1 h2 heq
    have hc : s1.content = s2.content := (g_mount_spec_equal_iff _ _).mp heq
    simp only [g_mount_spec_get_unique_for, h1, if_false, Bool.false_eq_true]
    cases hf : reg.find? (fun u => g_mount_spec_equal u.content s1.content) with
    | some u =>
      simp only [h2, if_false, Bool.false_eq_true, ← hc, hf]
    | none =>
      simp only [h2, if_false, Bool.false_eq_true, ← hc]
      have hfind : ({ s1 with is_unique := true } :: reg).find?
          (fun u => g_mount_spec_equal u.content s1.content) =
            some { s1 with is_unique := true } := by
        rw [List.find?_cons_of_pos]
        exact (g_mount_spec_equal_iff _ _).mpr rfl
      rw [hfind]

/-- Claim C7 witness: the miss/hit behaviour on a concrete registry run:
two distinct non-canonical instances with equal content converge on the
first one. -/
theorem claim_C7_witness :
    (SpecInst.mk 1 ⟨[], some ['/']⟩ false).is_unique = false ∧
    (SpecInst.mk 2 ⟨[], some ['/']⟩ false).is_unique = false ∧
    g_mount_spec_equal (GMountSpec.mk [] (some ['/'])) (GMountSpec.mk [] (some ['/'])) = true ∧
    (g_mount_spec_get_unique_for
        (g_mount_spec_get_unique_for [] (SpecInst.mk 1 ⟨[], some ['/']⟩ false)).2
        (SpecInst.mk 2 ⟨[], some ['/']⟩ false)).1 =
      (g_mount_spec_get_unique_for [] (SpecInst.mk 1 ⟨[], some ['/']⟩ false)).1 :=
  ⟨by decide, by decide, by decide,
    claim_C7_theorem.2.2.2.2 [] (SpecInst.mk 1 ⟨[], some ['/']⟩ false)
      (SpecInst.mk 2 ⟨[], some ['/']⟩ false) (by decide) (by decide) (by decide)⟩

theorem decodePair_eq {p t0 t1 : List Char} (h : gSplit '=' p = [t0, t1]) :
    decodePair p = ⟨uriUnescape t0, uriUnescape t1⟩ := by
  simp [decodePair, h, List.headI]

theorem fromStringLoop_invalid :
    ∀ (pre : List (List Char)) (bad : List Char) (post : List (List Char))
      (items0 : List GMountSpecItem) (pre0 : Option (List Char)),
      (∀ p ∈ pre, (gSplit '=' p).length = 2) → (gSplit '=' bad).length ≠ 2 →
      fromStringLoop (pre ++ bad :: post) items0 pre0 = .error (.invalidPair bad)
  | [], bad, post, items0, pre0, _, hbad => by
    simp only [List.nil_append, fromStringLoop]
    match hsp : gSplit '=' bad with
    | [] => rfl
    | [_] => rfl
    | [t0, t1] => exact absurd (by rw [hsp]; rfl) hbad
    | _ :: _ :: _ :: _ => rfl
  | p :: pre, bad, post, items0, pre0, hall, hbad => by
    obtain ⟨t0, t1, ht⟩ := List.length_eq_two.mp (hall p (List.mem_cons_self p pre))
    simp only [List.cons_append, fromStringLoop, ht]
    have hall2 : ∀ q ∈ pre, (gSplit '=' q).length = 2 :=
      fun q hq => hall q (List.mem_cons_of_mem p hq)
    by_cases hk : uriUnescape t0 = mountPreKey
    · simp only [hk, if_true]
      exact fromStringLoop_invalid pre bad post items0 _ hall2 hbad
    · simp only [hk, if_false]
      exact fromStringLoop_invalid pre bad post _ pre0 hall2 hbad

theorem fromStringLoop_ok :
    ∀ (pairs : List (List Char)) (items0 : List GMountSpecItem)
      (pre0 : Option (List Char)),
      (∀ p ∈ pairs, (gSplit '=' p).length = 2) →
      fromStringLoop pairs items0 pre0 =
        .ok (items0 ++ decodedItems pairs, (lastPreVal pairs).or pre0)
  | [], items0, pre0, _ => by
    simp [fromStringLoop, decodedItems, lastPreVal, Option.or]
  | p :: rest, items0, pre0, hall => by
    obtain ⟨t0, t1, ht⟩ := List.length_eq_two.mp (hall p (List.mem_cons_self p rest))
    have hdp := decodePair_eq ht
    have hall2 : ∀ q ∈ rest, (gSplit '=' q).length = 2 :=
      fun q hq => hall q (List.mem_cons_of_mem p hq)
    simp only [fromStringLoop, ht]
    by_cases hk : uriUnescape t0 = mountPreKey
    · simp only [hk, if_true]
      have h1 : decodedItems (p :: rest) = decodedItems rest := by
        simp [decodedItems, hdp, hk]
      have h2 : (lastPreVal (p :: rest)).or pre0 =
          (lastPreVal rest).or (some (uriUnescape t1)) := by
        simp only [lastPreVal, List.map_cons, hdp]
        rw [List.filter_cons_of_pos (by simp [hk])]
        cases hF : ((rest.map decodePair).filter
            (fun it => decide (it.key = mountPreKey))) with
        | nil => simp [Option.or]
        | cons x F2 =>
          have hg : (x :: F2).getLast? = some ((x :: F2).getLast (by simp)) :=
            List.getLast?_eq_getLast _ _
          simp [hg, Option.or]
      refine (fromStringLoop_ok rest items0 (some (uriUnescape t1)) hall2).trans ?_
      rw [h1, h2]
    · simp only [hk, if_false]
      have h1 : decodedItems (p :: rest) =
          GMountSpecItem.mk (uriUnescape t0) (uriUnescape t1) :: decodedItems rest := by
        simp only [decodedItems, List.map_cons, hdp]
        rw [List.filter_cons_of_pos (by simp [hk])]
      have h2 : lastPreVal (p :: rest) = lastPreVal rest := by
        simp only [lastPreVal, List.map_cons, hdp]
        rw [List.filter_cons_of_neg (by simp [hk])]
      refine (fromStringLoop_ok rest (items0 ++ [⟨uriUnescape t0, uriUnescape t1⟩])
        pre0 hall2).trans ?_
      rw [h1, h2]
      simp

/-- Claim C4 (confirmed): text decode is strict and all-or-nothing. If a
comma token does not split on `=` into exactly two tokens, the decode
returns the invalid-pair error naming the first such token and no spec;
if every token parses but no `__mount_prefix` pair is present, it returns
the missing-prefix error naming the whole input. The two given examples
behave exactly so. -/
theorem claim_C4_theorem :
    (∀ (str : List Char) (pre : List (List Char)) (bad : List Char)
        (post : List (List Char)),
      gSplit ',' str = pre ++ bad :: post →
      (∀ p ∈ pre, (gSplit '=' p).length = 2) →
      (gSplit '=' bad).length ≠ 2 →
      g_mount_spec_new_from_string str = .error (.invalidPair bad)) ∧
    (∀ str : List Char,
      (∀ p ∈ gSplit ',' str, (gSplit '=' p).length = 2) →
      lastPreVal (gSplit ',' str) = none →
      g_mount_spec_new_from_string str = .error (.missingPre str)) ∧
    g_mount_spec_new_from_string "type=ftp".data =
      .error (.missingPre "type=ftp".data) ∧
    g_mount_spec_new_from_string "badtoken,type=ftp,__mount_prefix=/".data =
      .error (.invalidPair "badtoken".data) := by
  refine ⟨?_, ?_, by decide, by decide⟩
  · intro str pre bad post hsplit hgood hbad
    simp only [g_mount_spec_new_from_string, hsplit,
      fromStringLoop_invalid pre bad post [] none hgood hbad]
  · intro str hgood hnone
    simp only [g_mount_spec_new_from_string, fromStringLoop_ok (gSplit ',' str) [] none hgood,
      hnone, Option.or]

/-- Claim C4 witness: the missing-prefix clause applied to the concrete
input `type=ftp`. -/
theorem claim_C4_witness :
    (∀ p ∈ gSplit ',' "type=ftp".data, (gSplit '=' p).length = 2) ∧
    lastPreVal (gSplit ',' "type=ftp".data) = none ∧
    g_mount_spec_new_from_string "type=ftp".data =
      .error (.missingPre "type=ftp".data) :=
  ⟨by decide, by decide, claim_C4_theorem.2.1 "type=ftp".data (by decide) (by decide)⟩

/-- Claim C10 (confirmed): when every comma token of the input splits
into exactly two `=` tokens and at least one pair's unescaped key is
`__mount_prefix`, decode succeeds, no `__mount_prefix` pair is stored as
an item, and the resulting mount prefix is the unescaped value of the
last such pair. -/
theorem claim_C10_theorem :
    ∀ (str v : List Char),
      (∀ p ∈ gSplit ',' str, (gSplit '=' p).length = 2) →
      lastPreVal (gSplit ',' str) = some v →
      g_mount_spec_new_from_string str =
        .ok ⟨sortItems (decodedItems (gSplit ',' str)), some v⟩ := by
  intro str v hgood hlast
  simp only [g_mount_spec_new_from_string, fromStringLoop_ok (gSplit ',' str) [] none hgood,
    hlast, Option.or, List.nil_append]
  rfl

/-- Claim C10 witness: two well-formed `__mount_prefix` pairs; the last
one (`%2Fb`, unescaping to `/b`) wins and neither is stored as an item. -/
theorem claim_C10_witness :
    (∀ p ∈ gSplit ',' "__mount_prefix=%2Fa,type=ftp,__mount_prefix=%2Fb".data,
      (gSplit '=' p).length = 2) ∧
    lastPreVal (gSplit ',' "__mount_prefix=%2Fa,type=ftp,__mount_prefix=%2Fb".data) =
      some "/b".data ∧
    g_mount_spec_new_from_string "__mount_prefix=%2Fa,type=ftp,__mount_prefix=%2Fb".data =
      .ok ⟨sortItems (decodedItems
        (gSplit ',' "__mount_prefix=%2Fa,type=ftp,__mount_prefix=%2Fb".data)),
        some "/b".data⟩ :=
  ⟨by decide, by decide,
    claim_C10_theorem "__mount_prefix=%2Fa,type=ftp,__mount_prefix=%2Fb".data
      "/b".data (by decide) (by decide)⟩

theorem uriUnescape_cons_ne (c : Char) (r : List Char) (h : c ≠ '%') :
    uriUnescape (c :: r) = c :: uriUnescape r := by
  rw [uriUnescape.eq_def]
  split
  · rename_i heq; exact absurd heq (List.cons_ne_nil c r)
  · rename_i heq; injection heq with h1 _; exact absurd h1 h
  · rename_i heq; injection heq with h1 h2; rw [h1, h2]

theorem uriUnescape_triple (a b : Char) (r : List Char)
    (ha : isHexDigit a = true) (hb : isHexDigit b = true) :
    uriUnescape ('%' :: a :: b :: r) =
      Char.ofNat (hexVal a * 16 + hexVal b) :: uriUnescape r := by
  rw [uriUnescape.eq_def]
  split
  · rename_i heq; exact absurd heq (List.cons_ne_nil _ _)
  · rename_i a2 b2 r2 heq
    injection heq with h1 h2
    injection h2 with h2 h3
    injection h3 with h3 h4
    subst h2; subst h3; subst h4
    rw [if_pos ⟨ha, hb⟩]
  · rename_i hno heq
    injection heq with h1 h2
    exact absurd trivial (fun _ => hno a b r h1.symm h2.symm)

theorem unreserved_ne_percent {c : Char} (h : uriUnreserved c = true) : c ≠ '%' := by
  intro he
  rw [he] at h
  exact absurd h (by decide)

theorem toNat_lt_of_not_unreserved {c : Char} (h : uriUnreserved c = false) :
    c.toNat < 128 := by
  by_contra hlt
  have h128 : 128 ≤ c.toNat := Nat.le_of_not_lt hlt
  have : uriUnreserved c = true := by
    simp [uriUnreserved, h128]
  rw [h] at this
  exact Bool.false_ne_true this

theorem hexUp_isHex {n : Nat} (h : n < 16) : isHexDigit (hexUp n) = true := by
  interval_cases n <;> decide

theorem hexVal_hexUp {n : Nat} (h : n < 16) : hexVal (hexUp n) = n := by
  interval_cases n <;> decide

theorem hexUp_ne_delims {n : Nat} (h : n < 16) :
    hexUp n ≠ ',' ∧ hexUp n ≠ '=' := by
  interval_cases n <;> exact ⟨by decide, by decide⟩

theorem uriUnescape_uriEscape : ∀ s : List Char, uriUnescape (uriEscape s) = s
  | [] => rfl
  | c :: s => by
    simp only [uriEscape, List.flatMap_cons]
    by_cases h : uriUnreserved c
    · rw [escapeChar, if_pos h]
      simp only [List.cons_append, List.nil_append]
      rw [uriUnescape_cons_ne c _ (unreserved_ne_percent h)]
      rw [show s.flatMap escapeChar = uriEscape s from rfl, uriUnescape_uriEscape s]
    · simp only [Bool.not_eq_true] at h
      have hlt : c.toNat < 128 := toNat_lt_of_not_unreserved h
      have hhi : c.toNat / 16 < 16 := by omega
      have hlo : c.toNat % 16 < 16 := Nat.mod_lt _ (by omega)
      rw [escapeChar, if_neg (by simp [h])]
      simp only [List.cons_append, List.nil_append]
      rw [uriUnescape_triple _ _ _ (hexUp_isHex hhi) (hexUp_isHex hlo)]
      rw [hexVal_hexUp hhi, hexVal_hexUp hlo,
        show c.toNat / 16 * 16 + c.toNat % 16 = c.toNat from by omega, Char.ofNat_toNat]
      rw [show s.flatMap escapeChar = uriEscape s from rfl, uriUnescape_uriEscape s]

theorem not_mem_uriEscape {d : Char} (hd : uriUnreserved d = false)
    (hd2 : isHexDigit d = false) (hd3 : d ≠ '%') :
    ∀ s : List Char, d ∉ uriEscape s
  | [] => by simp [uriEscape]
  | c :: s => by
    simp only [uriEscape, List.flatMap_cons, List.mem_append]
    rintro (hm | hm)
    · rw [escapeChar] at hm
      by_cases h : uriUnreserved c
      · rw [if_pos h] at hm
        rw [List.mem_singleton.mp hm, h] at hd
        exact absurd hd (by simp)
      · simp only [Bool.not_eq_true] at h
        rw [if_neg (by simp [h])] at hm
        have hlt : c.toNat < 128 := toNat_lt_of_not_unreserved h
        simp only [List.mem_cons, List.not_mem_nil, or_false] at hm
        rcases hm with hm | hm | hm
        · exact hd3 hm
        · rw [hm, hexUp_isHex (by omega : c.toNat / 16 < 16)] at hd2
          exact absurd hd2 (by simp)
        · rw [hm, hexUp_isHex (Nat.mod_lt _ (by omega) : c.toNat % 16 < 16)] at hd2
          exact absurd hd2 (by simp)
    · exact not_mem_uriEscape hd hd2 hd3 s hm

theorem comma_not_mem_uriEscape (s : List Char) : ',' ∉ uriEscape s :=
  not_mem_uriEscape (by decide) (by decide) (by decide) s

theorem eq_not_mem_uriEscape (s : List Char) : '=' ∉ uriEscape s :=
  not_mem_uriEscape (by decide) (by decide) (by decide) s

theorem splitChar_no_delim {d : Char} : ∀ {a : List Char}, d ∉ a → splitChar d a = [a]
  | [], _ => rfl
  | c :: r, h => by
    have hc : ¬ c = d := fun he => h (he ▸ List.mem_cons_self c r)
    have hr : d ∉ r := fun hm => h (List.mem_cons_of_mem c hm)
    simp only [splitChar, if_neg hc, splitChar_no_delim hr]
    rfl

theorem splitChar_append_cons {d : Char} :
    ∀ (a r : List Char), d ∉ a → splitChar d (a ++ d :: r) = a :: splitChar d r
  | [], r, _ => by simp [splitChar]
  | c :: a, r, h => by
    have hc : ¬ c = d := fun he => h (he ▸ List.mem_cons_self c a)
    have ha : d ∉ a := fun hm => h (List.mem_cons_of_mem c hm)
    simp only [List.cons_append, splitChar, if_neg hc, List.append_eq]
    rw [splitChar_append_cons a r ha]
    rfl

theorem gSplit_pairStr (k v : List Char) :
    gSplit '=' (uriEscape k ++ '=' :: uriEscape v) = [uriEscape k, uriEscape v] := by
  have hne : ¬ (uriEscape k ++ '=' :: uriEscape v) = [] := by simp
  rw [gSplit, if_neg hne, splitChar_append_cons _ _ (eq_not_mem_uriEscape k),
    splitChar_no_delim (eq_not_mem_uriEscape v)]

theorem decodePair_pairStr (k v : List Char) :
    decodePair (uriEscape k ++ '=' :: uriEscape v) = ⟨k, v⟩ := by
  rw [decodePair_eq (gSplit_pairStr k v), uriUnescape_uriEscape, uriUnescape_uriEscape]

theorem split_to_string :
    ∀ (items : List GMountSpecItem) (pre : List Char),
      splitChar ',' (g_mount_spec_to_string ⟨items, some pre⟩) =
        items.map (fun it => uriEscape it.key ++ '=' :: uriEscape it.value) ++
          [uriEscape mountPreKey ++ '=' :: uriEscape pre]
  | [], pre => by
    simp only [g_mount_spec_to_string, List.flatMap_nil, List.nil_append, List.map_nil]
    refine splitChar_no_delim ?_
    intro hm
    rcases List.mem_append.mp hm with hm | hm
    · exact comma_not_mem_uriEscape mountPreKey hm
    · rcases List.mem_cons.mp hm with hm | hm
      · exact absurd hm (by decide)
      · exact comma_not_mem_uriEscape pre hm
  | it :: items, pre => by
    have hstep : g_mount_spec_to_string ⟨it :: items, some pre⟩ =
        (uriEscape it.key ++ '=' :: uriEscape it.value) ++
          ',' :: g_mount_spec_to_string ⟨items, some pre⟩ := by
      simp [g_mount_spec_to_string, List.flatMap_cons]
    rw [hstep, splitChar_append_cons _ _ ?_, split_to_string items pre, List.map_cons,
      List.cons_append]
    intro hm
    rcases List.mem_append.mp hm with hm | hm
    · exact comma_not_mem_uriEscape it.key hm
    · rcases List.mem_cons.mp hm with hm | hm
      · exact absurd hm (by decide)
      · exact comma_not_mem_uriEscape it.value hm

theorem to_string_ne_nil (items : List GMountSpecItem) (pre : List Char) :
    ¬ g_mount_spec_to_string ⟨items, some pre⟩ = [] := by
  simp only [g_mount_spec_to_string]
  intro h
  rcases List.append_eq_nil.mp h with ⟨_, h2⟩
  exact List.cons_ne_nil _ _ h2

/-- Claim C2 (corrected): text round-trip. For every spec whose items are
strictly sorted by key (the store invariant) and contain no item whose
key is the reserved word `__mount_prefix`, and whose prefix is non-NULL,
decoding the text encoding succeeds and returns exactly the same items
and the same prefix. (Characters needing escaping, `=`/`,` included,
round-trip fine; the real exception the claim misses is an item keyed
`__mount_prefix`, which the decoder diverts into the prefix.) -/
theorem claim_C2_theorem (items : List GMountSpecItem) (pre : List Char)
    (hs : items.Sorted itemLt) (hk : ∀ it ∈ items, it.key ≠ mountPreKey) :
    g_mount_spec_new_from_string (g_mount_spec_to_string ⟨items, some pre⟩) =
      .ok ⟨items, some pre⟩ := by
  have hsplit : gSplit ',' (g_mount_spec_to_string ⟨items, some pre⟩) =
      items.map (fun it => uriEscape it.key ++ '=' :: uriEscape it.value) ++
        [uriEscape mountPreKey ++ '=' :: uriEscape pre] := by
    rw [gSplit, if_neg (to_string_ne_nil items pre)]
    exact split_to_string items pre
  have hgood : ∀ p ∈ gSplit ',' (g_mount_spec_to_string ⟨items, some pre⟩),
      (gSplit '=' p).length = 2 := by
    rw [hsplit]
    intro p hp
    rcases List.mem_append.mp hp with hp | hp
    · rcases List.mem_map.mp hp with ⟨it, _, rfl⟩
      rw [gSplit_pairStr]
      rfl
    · rw [List.mem_singleton.mp hp, gSplit_pairStr]
      rfl
  have hmapped : (items.map (fun it => uriEscape it.key ++ '=' :: uriEscape it.value)).map
      decodePair = items := by
    rw [List.map_map]
    refine List.map_congr_left ?_ |>.trans (List.map_id items)
    intro it _
    show decodePair (uriEscape it.key ++ '=' :: uriEscape it.value) = it
    rw [decodePair_pairStr]
  have hfi : List.filter (fun it => decide (¬ it.key = mountPreKey)) items = items :=
    List.filter_eq_self.mpr (fun it hmem => by simpa using hk it hmem)
  have hfo : List.filter (fun it => decide (it.key = mountPreKey)) items = [] :=
    List.filter_eq_nil_iff.mpr (fun it hmem => by simpa using hk it hmem)
  have hdecoded : decodedItems (gSplit ',' (g_mount_spec_to_string ⟨items, some pre⟩)) =
      items := by
    rw [hsplit]
    simp only [decodedItems, List.map_append, List.filter_append, hmapped, List.map_cons,
      List.map_nil, decodePair_pairStr, List.filter_nil]
    rw [List.filter_cons_of_neg (by simp), hfi, List.filter_nil, List.append_nil]
  have hlast : lastPreVal (gSplit ',' (g_mount_spec_to_string ⟨items, some pre⟩)) =
      some pre := by
    rw [hsplit]
    simp only [lastPreVal, List.map_append, List.filter_append, hmapped, List.map_cons,
      List.map_nil, decodePair_pairStr, List.filter_nil]
    rw [hfo, List.filter_cons_of_pos (by simp), List.filter_nil, List.nil_append]
    rfl
  have hloop := fromStringLoop_ok
    (gSplit ',' (g_mount_spec_to_string ⟨items, some pre⟩)) [] none hgood
  rw [hdecoded, hlast] at hloop
  simp only [List.nil_append, Option.or] at hloop
  simp only [g_mount_spec_new_from_string, hloop]
  rw [show g_mount_spec_new_from_data items (some pre) = ⟨sortItems items, some pre⟩ from rfl,
    sortItems_eq_self (sorted_le_of_lt hs)]

/-- Claim C2 witness: a concrete two-item spec with characters that need
escaping in the prefix round-trips through the text codec. -/
theorem claim_C2_witness :
    (GMountSpec.mk [⟨"host".data, "example.com".data⟩, ⟨"type".data, "ftp".data⟩]
        (some "/pa th".data)).items.Sorted itemLt ∧
    (∀ it ∈ [GMountSpecItem.mk "host".data "example.com".data,
        GMountSpecItem.mk "type".data "ftp".data], it.key ≠ mountPreKey) ∧
    g_mount_spec_new_from_string (g_mount_spec_to_string
        ⟨[⟨"host".data, "example.com".data⟩, ⟨"type".data, "ftp".data⟩],
          some "/pa th".data⟩) =
      .ok ⟨[⟨"host".data, "example.com".data⟩, ⟨"type".data, "ftp".data⟩],
        some "/pa th".data⟩ :=
  ⟨by decide, by decide,
    claim_C2_theorem
      [⟨"host".data, "example.com".data⟩, ⟨"type".data, "ftp".data⟩]
      "/pa th".data (by decide) (by decide)⟩

/-- Claim C2 counterexample: an item keyed `__mount_prefix` (no `=` or
`,` anywhere) does not round-trip: the decoder diverts it into the
prefix, so the decoded spec has no items. -/
theorem claim_C2_counterexample :
    g_mount_spec_new_from_string (g_mount_spec_to_string
        ⟨[⟨mountPreKey, ['x']⟩], some ['/']⟩) = .ok ⟨[], some ['/']⟩ ∧
    (GMountSpec.mk [] (some ['/'])) ≠ ⟨[⟨mountPreKey, ['x']⟩], some ['/']⟩ := by
  constructor
  · decide
  · decide

/-- Claim C8 (corrected): wire round-trip. For every spec whose items are
strictly sorted by key (the store invariant) and whose mount prefix is
non-NULL, decoding the wire encoding yields a spec with the same items
and the same mount prefix. (A NULL prefix does not round-trip: the
encoder sends the empty string in its place, which decodes to a non-NULL
empty prefix.) -/
theorem claim_C8_theorem (items : List GMountSpecItem) (mp : List Char)
    (hs : items.Sorted itemLt) :
    g_mount_spec_from_dbus (g_mount_spec_to_dbus ⟨items, some mp⟩) =
      some ⟨items, some mp⟩ := by
  have henc : g_mount_spec_to_dbus ⟨items, some mp⟩ =
      .strct [.cstr mp,
        .array .tStruct (items.map fun it => .strct [.str it.key, .cstr it.value])] := rfl
  rw [henc]
  simp only [g_mount_spec_from_dbus, Option.some.injEq]
  have htake : (items.map fun it =>
      DBusValue.strct [.str it.key, .cstr it.value]).takeWhile isStructVal =
        items.map fun it => DBusValue.strct [.str it.key, .cstr it.value] := by
    refine List.takeWhile_eq_self_iff.mpr ?_
    intro x hx
    rcases List.mem_map.mp hx with ⟨it, _, rfl⟩
    rfl
  rw [htake, List.filterMap_map]
  have hfm : items.filterMap
      (readItemStruct ∘ fun it => DBusValue.strct [.str it.key, .cstr it.value]) =
        items := by
    have hcong : items.filterMap
        (readItemStruct ∘ fun it => DBusValue.strct [.str it.key, .cstr it.value]) =
          items.filterMap some := by
      refine List.filterMap_congr ?_
      intro it _
      show readItemStruct (DBusValue.strct [.str it.key, .cstr it.value]) = some it
      cases it
      rfl
    rw [hcong, List.filterMap_some]
  rw [hfm, sortItems_eq_self (sorted_le_of_lt hs)]

/-- Claim C8 witness: a concrete sorted two-item spec with a non-NULL
prefix round-trips through the wire codec. -/
theorem claim_C8_witness :
    (GMountSpec.mk [⟨"host".data, "example.com".data⟩, ⟨"type".data, "ftp".data⟩]
        (some "/".data)).items.Sorted itemLt ∧
    g_mount_spec_from_dbus (g_mount_spec_to_dbus
        ⟨[⟨"host".data, "example.com".data⟩, ⟨"type".data, "ftp".data⟩], some "/".data⟩) =
      some ⟨[⟨"host".data, "example.com".data⟩, ⟨"type".data, "ftp".data⟩], some "/".data⟩ :=
  ⟨by decide,
    claim_C8_theorem [⟨"host".data, "example.com".data⟩, ⟨"type".data, "ftp".data⟩]
      "/".data (by decide)⟩

/-- Claim C8 counterexample: a spec with NULL mount prefix does not
round-trip: the encoder emits the empty path in place of the NULL
prefix, and it decodes to a spec with a non-NULL empty prefix. -/
theorem claim_C8_counterexample :
    g_mount_spec_from_dbus (g_mount_spec_to_dbus ⟨[], none⟩) = some ⟨[], some []⟩ ∧
    (GMountSpec.mk [] (some [])) ≠ ⟨[], none⟩ := by
  constructor
  · rfl
  · intro h
    exact Option.noConfusion (congrArg GMountSpec.mount_pre h)

theorem getD_append_right_my (l1 l2 : List Char) (i : Nat) (d : Char) :
    (l1 ++ l2).getD (l1.length + i) d = l2.getD i d := by
  simp [List.getD, List.getElem?_append_right (Nat.le_add_right l1.length i)]

theorem flatSegs_eq (e : Bool) (stack : List (List Char)) :
    flatSegs e stack = (if e then ['/'] else []) ++ stack.flatMap (fun s => s ++ ['/']) := by
  cases e <;> simp [flatSegs]

theorem flatSegs_concat (e : Bool) (stack : List (List Char)) (s : List Char) :
    flatSegs e (stack ++ [s]) = flatSegs e stack ++ (s ++ ['/']) := by
  simp [flatSegs_eq, List.flatMap_append]

theorem joinSlash_concat : ∀ (stack : List (List Char)) (s : List Char),
    stack.flatMap (fun t => t ++ ['/']) ++ s = joinSlash (stack ++ [s])
  | [], s => by simp [joinSlash]
  | t :: st, s => by
    cases st with
    | nil => simp [joinSlash]
    | cons t2 st2 =>
      have ih := joinSlash_concat (t2 :: st2) s
      have h1 : ((t :: t2 :: st2).flatMap fun u => u ++ ['/']) ++ s =
          t ++ '/' :: (((t2 :: st2).flatMap fun u => u ++ ['/']) ++ s) := by
        simp
      rw [h1, ih]
      show _ = joinSlash (t :: t2 :: (st2 ++ [s]))
      simp [joinSlash]

theorem flatMap_ne_nil_join : ∀ (stack : List (List Char)), stack ≠ [] →
    stack.flatMap (fun t => t ++ ['/']) = joinSlash stack ++ ['/']
  | [], h => absurd rfl h
  | t :: st, _ => by
    cases st with
    | nil => simp [joinSlash]
    | cons t2 st2 =>
      have ih := flatMap_ne_nil_join (t2 :: st2) (List.cons_ne_nil t2 st2)
      have h1 : ((t :: t2 :: st2).flatMap fun u => u ++ ['/']) =
          t ++ '/' :: ((t2 :: st2).flatMap fun u => u ++ ['/']) := by
        simp
      rw [h1, ih]
      simp [joinSlash]

theorem splitNE_nil : splitNE [] = [] := by
  rw [splitNE]
  simp

theorem splitNE_slash {l : List Char} (h : l.head? = some '/') :
    splitNE l = splitNE (l.dropWhile (fun c => c = '/')) := by
  have hne : ¬ l = [] := by
    intro he
    rw [he] at h
    exact Option.noConfusion h
  rw [splitNE]
  simp [hne, h]

theorem splitNE_seg {l : List Char} (hne : l ≠ []) (h : ¬ l.head? = some '/') :
    splitNE l = l.takeWhile (fun c => ¬ c = '/') ::
      splitNE (l.dropWhile (fun c => ¬ c = '/')) := by
  rw [splitNE]
  simp [hne, h]

theorem canonLoop_at_end : ∀ (f : Nat) (buf : List Char),
    canonLoop f buf buf.length = buf
  | 0, _ => rfl
  | _ + 1, buf => by simp [canonLoop]

theorem collapseAt_pre (P x : List Char) :
    collapseAt (P ++ x) P.length = P ++ x.dropWhile (fun c => c = '/') := by
  simp [collapseAt, List.take_left, List.drop_left]

theorem findSlash_all (s : List Char) (hs : '/' ∉ s) : findSlash s = s.length := by
  induction s with
  | nil => rfl
  | cons c r ih =>
    have hc : ¬ c = '/' := fun he => hs (he ▸ List.mem_cons_self c r)
    simp only [findSlash, if_neg hc, List.length_cons]
    rw [ih (fun hm => hs (List.mem_cons_of_mem c hm))]

theorem findSlash_append_slash (s r : List Char) (hs : '/' ∉ s)
    (hr : r.head? = some '/') : findSlash (s ++ r) = s.length := by
  induction s with
  | nil =>
    cases r with
    | nil => exact Option.noConfusion hr
    | cons c r2 =>
      have hc : c = '/' := by
        simpa using hr
      simp [findSlash, hc]
  | cons c s2 ih =>
    have hc : ¬ c = '/' := fun he => hs (he ▸ List.mem_cons_self c s2)
    simp only [List.cons_append, findSlash, if_neg hc, List.length_cons, List.append_eq]
    rw [ih (fun hm => hs (List.mem_cons_of_mem c hm))]

theorem backtrack_stop : ∀ (n t : Nat) (buf : List Char), 1 ≤ t →
    (∀ i, t < i → i ≤ t + n → ¬ buf.getD i ' ' = '/') →
    (t = 1 ∨ buf.getD t ' ' = '/') →
    backtrack buf (t + n) = t := by
  intro n
  induction n with
  | zero =>
    intro t buf ht _ hstop
    match t, ht with
    | q + 1, _ =>
      show backtrack buf (q + 1) = q + 1
      rw [backtrack]
      rcases hstop with h | h
      · have hq : q = 0 := by omega
        subst hq
        simp
      · rw [if_neg]
        intro hc
        exact hc.2 h
  | succ n ih =>
    intro t buf ht hno hstop
    have hx : t + (n + 1) = (t + n) + 1 := by omega
    rw [hx, backtrack, if_pos]
    · exact ih t buf ht (fun i h1 h2 => hno i h1 (by omega)) hstop
    · constructor
      · omega
      · exact hno (t + n + 1) (by omega) (by omega)

theorem getD_head {l : List Char} {c : Char} (h : l.head? = some c) (d : Char) :
    l.getD 0 d = c := by
  cases l
  · exact Option.noConfusion h
  · simpa using h

theorem flatSegs_getLast {e : Bool} {stack : List (List Char)}
    (h : flatSegs e stack ≠ []) : (flatSegs e stack).getLast? = some '/' := by
  rw [flatSegs_eq] at h ⊢
  cases hst : stack with
  | nil =>
    cases e with
    | false => simp [hst] at h
    | true => simp
  | cons t st =>
    rw [flatMap_ne_nil_join (t :: st) (List.cons_ne_nil t st), ← List.append_assoc]
    exact List.getLast?_concat _

theorem stripTrail_flat (e : Bool) (stack : List (List Char)) :
    stripTrail ('/' :: flatSegs e stack) = assemblePath e stack := by
  cases hst : stack with
  | nil =>
    cases e with
    | false =>
      show stripTrail ['/'] = assemblePath false []
      rw [stripTrail, if_neg (by simp)]
      rfl
    | true =>
      show stripTrail ['/', '/'] = assemblePath true []
      rw [stripTrail, if_pos (by simp)]
      rfl
  | cons t st =>
    have hne : (t :: st).flatMap (fun u => u ++ ['/']) =
        joinSlash (t :: st) ++ ['/'] := flatMap_ne_nil_join _ (List.cons_ne_nil t st)
    have hbuf : '/' :: flatSegs e (t :: st) =
        ('/' :: (if e then ['/'] else []) ++ joinSlash (t :: st)) ++ ['/'] := by
      rw [flatSegs_eq, hne]
      simp
    rw [hbuf, stripTrail, if_pos, List.dropLast_concat]
    · rw [assemblePath, if_neg (List.cons_ne_nil t st)]
      simp
    · constructor
      · simp
      · exact List.getLast?_concat _

theorem backtrack_step (e : Bool) (stack : List (List Char)) (rest : List Char)
    (hwf : ∀ s ∈ stack, segWF s) (hc0 : rest.head? = some '.') :
    (if ('/' :: flatSegs e stack ++ rest).getD
        (backtrack ('/' :: flatSegs e stack ++ rest)
          (max 1 (1 + (flatSegs e stack).length - 2))) ' ' = '/' then
      backtrack ('/' :: flatSegs e stack ++ rest)
        (max 1 (1 + (flatSegs e stack).length - 2)) + 1
    else
      backtrack ('/' :: flatSegs e stack ++ rest)
        (max 1 (1 + (flatSegs e stack).length - 2))) =
    1 + (flatSegs e stack.dropLast).length := by
  rcases List.eq_nil_or_concat' stack with rfl | ⟨st2, sk, rfl⟩
  · cases e with
    | false =>
      have hmax : max 1 (1 + (flatSegs false ([] : List (List Char))).length - 2) = 1 := by
        rfl
      rw [hmax]
      have hb : backtrack ('/' :: flatSegs false [] ++ rest) 1 = 1 := by
        rw [backtrack]
        simp
      rw [hb]
      have hgd : ('/' :: flatSegs false [] ++ rest).getD 1 ' ' = '.' := by
        show ('/' :: rest).getD 1 ' ' = '.'
        simpa using getD_head hc0 ' '
      rw [hgd, if_neg (by decide)]
      rfl
    | true =>
      have hmax : max 1 (1 + (flatSegs true ([] : List (List Char))).length - 2) = 1 := by
        rfl
      rw [hmax]
      have hb : backtrack ('/' :: flatSegs true [] ++ rest) 1 = 1 := by
        rw [backtrack]
        simp
      rw [hb]
      have hgd : ('/' :: flatSegs true [] ++ rest).getD 1 ' ' = '/' := rfl
      rw [hgd, if_pos rfl]
      rfl
  · have hsk : segWF sk := hwf sk (by simp)
    have hbuf : '/' :: flatSegs e (st2 ++ [sk]) ++ rest =
        ('/' :: flatSegs e st2) ++ (sk ++ '/' :: rest) := by
      rw [flatSegs_concat]
      simp
    have hlenP : ('/' :: flatSegs e st2).length = 1 + (flatSegs e st2).length := by
      simp [Nat.add_comm]
    have hskne : sk.length ≠ 0 := fun h0 => hsk.1 (List.length_eq_zero.mp h0)
    have hlen : 1 + (flatSegs e (st2 ++ [sk])).length =
        (1 + (flatSegs e st2).length) + sk.length + 1 := by
      rw [flatSegs_concat]
      simp
      omega
    rw [List.dropLast_concat, hbuf, hlen]
    have hskchars : ∀ j, j < sk.length →
        (('/' :: flatSegs e st2) ++ (sk ++ '/' :: rest)).getD
          (1 + (flatSegs e st2).length + j) ' ' ≠ '/' := by
      intro j hj
      rw [← hlenP, getD_append_right_my]
      rw [List.getD_append _ _ _ _ (by omega)]
      rw [List.getD_eq_getElem sk ' ' (by omega)]
      intro hbad
      exact hsk.2 (hbad ▸ List.getElem_mem (by omega))
    set b := 1 + (flatSegs e st2).length with hbdef
    by_cases hbone : b = 1
    · have hA : flatSegs e st2 = [] := by
        have : (flatSegs e st2).length = 0 := by omega
        exact List.length_eq_zero.mp this
      have hmax : max 1 (b + sk.length + 1 - 2) = b + sk.length - 1 := by
        omega
      rw [hmax]
      have hstop := backtrack_stop (sk.length - 1) 1
        (('/' :: flatSegs e st2) ++ (sk ++ '/' :: rest)) (by omega)
        (fun i h1 h2 => by
          have hj : i = b + (i - b) := by omega
          rw [hj]
          exact hskchars (i - b) (by omega))
        (Or.inl rfl)
      have hql : 1 + (sk.length - 1) = b + sk.length - 1 := by omega
      rw [hql] at hstop
      rw [hstop]
      have hgd : (('/' :: flatSegs e st2) ++ (sk ++ '/' :: rest)).getD 1 ' ' ≠ '/' := by
        have h1 : (1 : Nat) = b + 0 := by omega
        rw [h1]
        exact hskchars 0 (by omega)
      rw [if_neg hgd]
      omega
    · have hb2 : 2 ≤ b := by omega
      have hmax : max 1 (b + sk.length + 1 - 2) = b + sk.length - 1 := by
        omega
      rw [hmax]
      have hAne : flatSegs e st2 ≠ [] := by
        intro h0
        rw [h0] at hbdef
        simp at hbdef
        omega
      have hgdb : (('/' :: flatSegs e st2) ++ (sk ++ '/' :: rest)).getD (b - 1) ' ' = '/' := by
        rw [List.getD_append _ _ _ _ (by rw [hlenP]; omega)]
        have hlast : ('/' :: flatSegs e st2).getLast? = some '/' := by
          show (['/'] ++ flatSegs e st2).getLast? = some '/'
          rw [List.getLast?_append_of_ne_nil _ hAne]
          exact flatSegs_getLast hAne
        rw [List.getLast?_eq_getElem?] at hlast
        have hix : b - 1 = ('/' :: flatSegs e st2).length - 1 := by
          rw [hlenP]
        rw [hix]
        simp only [List.getD]
        rw [List.get?_eq_getElem?, hlast]
        rfl
      have hstop := backtrack_stop sk.length (b - 1)
        (('/' :: flatSegs e st2) ++ (sk ++ '/' :: rest)) (by omega)
        (fun i h1 h2 => by
          have hj : i = b + (i - b) := by omega
          rw [hj]
          exact hskchars (i - b) (by omega))
        (Or.inr hgdb)
      have hql : (b - 1) + sk.length = b + sk.length - 1 := by omega
      rw [hql] at hstop
      rw [hstop, if_pos hgdb]
      omega

theorem take_pre (P x : List Char) (j : Nat) (hj : j = P.length) :
    (P ++ x).take j = P := by
  subst hj
  exact List.take_left P x

theorem drop_pre (P x : List Char) (j k : Nat) (hj : j = P.length + k) :
    (P ++ x).drop j = x.drop k := by
  subst hj
  exact List.drop_append k

theorem getD_pre (P x : List Char) (j i : Nat) (d : Char) (hj : j = P.length + i) :
    (P ++ x).getD j d = x.getD i d := by
  subst hj
  exact getD_append_right_my P x i d

theorem collapseAt_pre2 (P x : List Char) (j : Nat) (hj : j = P.length) :
    collapseAt (P ++ x) j = P ++ x.dropWhile (fun c => c = '/') := by
  subst hj
  exact collapseAt_pre P x

theorem collapseAt_len (buf : List Char) (j : Nat) (hj : j = buf.length) :
    collapseAt buf j = buf := by
  subst hj
  simp [collapseAt]

theorem canonLoop_at_end2 (f : Nat) (buf : List Char) (j : Nat) (hj : j = buf.length) :
    canonLoop f buf j = buf := by
  subst hj
  exact canonLoop_at_end f buf

theorem dropWhile_slash_head (l : List Char) :
    ¬ (l.dropWhile (fun c => c = '/')).head? = some '/' := by
  induction l with
  | nil => simp
  | cons c r ih =>
    by_cases hc : c = '/'
    · rw [List.dropWhile_cons_of_pos (by simp [hc])]
      exact ih
    · rw [List.dropWhile_cons_of_neg (by simp [hc])]
      simpa using hc

theorem dropWhile_neg_head (l : List Char) :
    l.dropWhile (fun c => ¬ c = '/') = [] ∨
      (l.dropWhile (fun c => ¬ c = '/')).head? = some '/' := by
  induction l with
  | nil => exact Or.inl rfl
  | cons c r ih =>
    by_cases hc : c = '/'
    · right
      rw [List.dropWhile_cons_of_neg (by simp [hc])]
      simp [hc]
    · rw [List.dropWhile_cons_of_pos (by simp [hc])]
      exact ih

theorem takeWhile_no_slash (l : List Char) :
    '/' ∉ l.takeWhile (fun c => ¬ c = '/') := by
  intro hm
  have := List.mem_takeWhile_imp hm
  simp at this

theorem specStack_dot (stack : List (List Char)) (ss : List (List Char)) :
    specStack stack (['.'] :: ss) = specStack stack ss := by
  simp [specStack]

theorem specStack_dotdot (stack : List (List Char)) (ss : List (List Char)) :
    specStack stack (['.', '.'] :: ss) = specStack stack.dropLast ss := by
  simp [specStack]

theorem specStack_push (stack : List (List Char)) (s : List Char)
    (ss : List (List Char)) (h1 : s ≠ ['.']) (h2 : s ≠ ['.', '.']) :
    specStack stack (s :: ss) = specStack (stack ++ [s]) ss := by
  simp [specStack, h1, h2]

theorem flatSegs_dropLast (e : Bool) (stack : List (List Char)) :
    ∃ suf, flatSegs e stack = flatSegs e stack.dropLast ++ suf := by
  rcases List.eq_nil_or_concat' stack with rfl | ⟨st2, sk, rfl⟩
  · exact ⟨[], by simp⟩
  · rw [List.dropLast_concat, flatSegs_concat]
    exact ⟨sk ++ ['/'], rfl⟩

theorem stripTrail_seg (e : Bool) (stack : List (List Char)) (s : List Char)
    (hs : segWF s) :
    stripTrail ('/' :: flatSegs e stack ++ s) = assemblePath e (stack ++ [s]) := by
  have hlast : ('/' :: flatSegs e stack ++ s).getLast? = s.getLast? := by
    show (('/' :: flatSegs e stack) ++ s).getLast? = s.getLast?
    exact List.getLast?_append_of_ne_nil _ hs.1
  have hlast2 : ¬ ('/' :: flatSegs e stack ++ s).getLast? = some '/' := by
    rw [hlast, List.getLast?_eq_getLast s hs.1]
    intro hbad
    have : s.getLast hs.1 = '/' := by simpa using hbad
    exact hs.2 (this ▸ List.getLast_mem hs.1)
  rw [stripTrail, if_neg (fun hand => hlast2 hand.2)]
  rw [assemblePath, if_neg (by simp)]
  rw [flatSegs_eq, joinSlash_concat stack s |>.symm]
  simp

theorem canonLoop_spec : ∀ (fuel : Nat) (e : Bool) (stack : List (List Char)) (rest : List Char),
    (∀ s ∈ stack, segWF s) → ¬ rest.head? = some '/' → rest.length < fuel →
    stripTrail (canonLoop fuel ('/' :: flatSegs e stack ++ rest)
        (1 + (flatSegs e stack).length)) =
      assemblePath e (specStack stack (splitNE rest)) := by
  intro fuel
  induction fuel with
  | zero =>
    intro e stack rest _ _ h
    omega
  | succ f ih =>
    intro e stack rest hwf hh hlen
    have hPlen : ('/' :: flatSegs e stack).length = 1 + (flatSegs e stack).length := by
      simp [Nat.add_comm]
    cases hr : rest with
    | nil =>
      rw [List.append_nil, canonLoop_at_end2 _ _ _ (by rw [hPlen]), splitNE_nil]
      show stripTrail ('/' :: flatSegs e stack) = assemblePath e stack
      exact stripTrail_flat e stack
    | cons c r =>
      subst hr
      have hc : ¬ c = '/' := by simpa using hh
      have hgdz : ∀ (l : List Char) (ch : Char), ¬ ch = ' ' →
          (l.getD 0 ' ' = ch ↔ l.head? = some ch) := by
        intro l ch hch
        cases l with
        | nil =>
          constructor
          · intro h
            exact absurd (show (' ' : Char) = ch from h) (fun h2 => hch h2.symm)
          · intro h
            exact Option.noConfusion h
        | cons a t =>
          constructor
          · intro h
            have h2 : a = ch := h
            simp [h2]
          · intro h
            have h2 : a = ch := by simpa using h
            exact h2
      have hp0 : ('/' :: flatSegs e stack ++ (c :: r)).getD
          (1 + (flatSegs e stack).length) ' ' = c :=
        (getD_pre _ _ _ 0 ' ' (by rw [hPlen]; omega)).trans rfl
      have hp1 : ('/' :: flatSegs e stack ++ (c :: r)).getD
          (1 + (flatSegs e stack).length + 1) ' ' = r.getD 0 ' ' :=
        (getD_pre _ _ _ 1 ' ' (by rw [hPlen])).trans rfl
      have hp2 : ('/' :: flatSegs e stack ++ (c :: r)).getD
          (1 + (flatSegs e stack).length + 2) ' ' = r.getD 1 ' ' :=
        (getD_pre _ _ _ 2 ' ' (by rw [hPlen])).trans rfl
      have hblen : ('/' :: flatSegs e stack ++ (c :: r)).length =
          1 + (flatSegs e stack).length + (c :: r).length := by
        rw [show ('/' :: flatSegs e stack ++ (c :: r)) =
          ('/' :: flatSegs e stack) ++ (c :: r) from rfl, List.length_append, hPlen]
      simp only [canonLoop]
      rw [if_pos (show 1 + (flatSegs e stack).length <
        ('/' :: flatSegs e stack ++ (c :: r)).length by rw [hblen]; simp)]
      by_cases hc1 : c = '.' ∧ (r = [] ∨ r.head? = some '/')
      · -- the standalone `.` branch of the loop
        have hcond1 : ('/' :: flatSegs e stack ++ c :: r).getD
            (1 + (flatSegs e stack).length) ' ' = '.' ∧
            (('/' :: flatSegs e stack ++ c :: r).length ≤
                1 + (flatSegs e stack).length + 1 ∨
              ('/' :: flatSegs e stack ++ c :: r).getD
                (1 + (flatSegs e stack).length + 1) ' ' = '/') := by
          refine ⟨by rw [hp0]; exact hc1.1, ?_⟩
          rcases hc1.2 with h | h
          · subst h
            left
            rw [hblen]
            simp
          · right
            rw [hp1]
            exact getD_head h ' '
        rw [if_pos hcond1]
        rw [take_pre ('/' :: flatSegs e stack) _ _ (by rw [hPlen]),
          drop_pre ('/' :: flatSegs e stack) (c :: r) _ 1 (by rw [hPlen]),
          show (c :: r).drop 1 = r from rfl,
          collapseAt_pre2 ('/' :: flatSegs e stack) r _ (by rw [hPlen])]
        have hrec := ih e stack (r.dropWhile (fun c => c = '/')) hwf
          (dropWhile_slash_head r)
          (by
            have h1 : (r.dropWhile (fun c => c = '/')).length ≤ r.length :=
              List.Sublist.length_le (List.dropWhile_sublist _)
            simp only [List.length_cons] at hlen
            omega)
        rw [hrec]
        have hsplit : splitNE (c :: r) =
            ['.'] :: splitNE (r.dropWhile (fun c => c = '/')) := by
          rw [splitNE_seg (List.cons_ne_nil c r) (by simpa using hc)]
          have htw : (c :: r).takeWhile (fun c => ¬ c = '/') = ['.'] := by
            rw [hc1.1, List.takeWhile_cons_of_pos (by simp)]
            rcases hc1.2 with h | h
            · rw [h]
              rfl
            · cases r with
              | nil => rfl
              | cons a t =>
                have ha : a = '/' := by simpa using h
                rw [List.takeWhile_cons_of_neg (by simp [ha])]
          have hdw : (c :: r).dropWhile (fun c => ¬ c = '/') = r := by
            rw [List.dropWhile_cons_of_pos (by simp [hc])]
            rcases hc1.2 with h | h
            · rw [h]
              rfl
            · cases r with
              | nil => rfl
              | cons a t =>
                have ha : a = '/' := by simpa using h
                rw [List.dropWhile_cons_of_neg (by simp [ha])]
          rw [htw, hdw]
          rcases hc1.2 with h | h
          · rw [h]
            rfl
          · rw [splitNE_slash h]
        rw [hsplit, specStack_dot]
      · have hncond1 : ¬ (('/' :: flatSegs e stack ++ c :: r).getD
            (1 + (flatSegs e stack).length) ' ' = '.' ∧
            (('/' :: flatSegs e stack ++ c :: r).length ≤
                1 + (flatSegs e stack).length + 1 ∨
              ('/' :: flatSegs e stack ++ c :: r).getD
                (1 + (flatSegs e stack).length + 1) ' ' = '/')) := by
          rintro ⟨h1, h2⟩
          apply hc1
          rw [hp0] at h1
          refine ⟨h1, ?_⟩
          rcases h2 with h | h
          · left
            rw [hblen] at h
            simp only [List.length_cons] at h
            have hr0 : r.length = 0 := by omega
            exact List.length_eq_zero.mp hr0
          · rw [hp1] at h
            right
            exact (hgdz _ '/' (by decide)).mp h
        rw [if_neg hncond1]
        by_cases hc2 : c = '.' ∧ r.head? = some '.' ∧
            (r.tail = [] ∨ r.tail.head? = some '/')
        · -- the standalone `..` branch of the loop
          obtain ⟨hcdot, hrhead, htail⟩ := hc2
          obtain ⟨r2, rfl⟩ : ∃ r2, r = '.' :: r2 := by
            cases r with
            | nil => exact Option.noConfusion hrhead
            | cons a t =>
              have ha : a = '.' := by simpa using hrhead
              exact ⟨t, by rw [ha]⟩
          have htail2 : r2 = [] ∨ r2.head? = some '/' := by simpa using htail
          have hcond2 : ('/' :: flatSegs e stack ++ c :: '.' :: r2).getD
              (1 + (flatSegs e stack).length) ' ' = '.' ∧
              ('/' :: flatSegs e stack ++ c :: '.' :: r2).getD
                (1 + (flatSegs e stack).length + 1) ' ' = '.' ∧
              (('/' :: flatSegs e stack ++ c :: '.' :: r2).length ≤
                  1 + (flatSegs e stack).length + 2 ∨
                ('/' :: flatSegs e stack ++ c :: '.' :: r2).getD
                  (1 + (flatSegs e stack).length + 2) ' ' = '/') := by
            refine ⟨by rw [hp0]; exact hcdot, by rw [hp1]; rfl, ?_⟩
            rcases htail2 with h | h
            · subst h
              left
              rw [hblen]
              simp
            · right
              rw [hp2]
              exact getD_head (by simpa using h) ' '
          rw [if_pos hcond2]
          rw [backtrack_step e stack (c :: '.' :: r2) hwf (by rw [hcdot]; rfl)]
          obtain ⟨suf, hsuf⟩ := flatSegs_dropLast e stack
          have hsuflen : (flatSegs e stack).length =
              (flatSegs e stack.dropLast).length + suf.length := by
            rw [hsuf, List.length_append]
          have hbuf2 : '/' :: flatSegs e stack ++ (c :: '.' :: r2) =
              ('/' :: flatSegs e stack.dropLast) ++ (suf ++ (c :: '.' :: r2)) := by
            rw [hsuf]
            simp
          have htake : ('/' :: flatSegs e stack ++ (c :: '.' :: r2)).take
              (1 + (flatSegs e stack.dropLast).length) =
              '/' :: flatSegs e stack.dropLast := by
            rw [hbuf2]
            exact take_pre _ _ _ (by simp [Nat.add_comm])
          have hdrop : ('/' :: flatSegs e stack ++ (c :: '.' :: r2)).drop
              (1 + (flatSegs e stack).length + 2) = r2 := by
            rw [hbuf2]
            refine (drop_pre _ _ _ (suf.length + 2) (by simp; omega)).trans ?_
            exact (drop_pre suf (c :: '.' :: r2) _ 2 rfl).trans rfl
          rw [htake, hdrop,
            collapseAt_pre2 ('/' :: flatSegs e stack.dropLast) r2 _
              (by simp [Nat.add_comm])]
          have hrec := ih e stack.dropLast (r2.dropWhile (fun c => c = '/'))
            (fun s hs => hwf s ((List.dropLast_sublist _).subset hs))
            (dropWhile_slash_head r2)
            (by
              have h1 : (r2.dropWhile (fun c => c = '/')).length ≤ r2.length :=
                List.Sublist.length_le (List.dropWhile_sublist _)
              simp only [List.length_cons] at hlen
              omega)
          rw [hrec]
          have hsplit : splitNE (c :: '.' :: r2) =
              ['.', '.'] :: splitNE (r2.dropWhile (fun c => c = '/')) := by
            rw [splitNE_seg (List.cons_ne_nil _ _) (by simpa using hc)]
            have htw : (c :: '.' :: r2).takeWhile (fun c => ¬ c = '/') =
                ['.', '.'] := by
              rw [hcdot, List.takeWhile_cons_of_pos (by simp),
                List.takeWhile_cons_of_pos (by simp)]
              rcases htail2 with h | h
              · rw [h]
                rfl
              · cases r2 with
                | nil => rfl
                | cons a t =>
                  have ha : a = '/' := by simpa using h
                  rw [List.takeWhile_cons_of_neg (by simp [ha])]
            have hdw : (c :: '.' :: r2).dropWhile (fun c => ¬ c = '/') = r2 := by
              rw [List.dropWhile_cons_of_pos (by simp [hc]),
                List.dropWhile_cons_of_pos (by simp)]
              rcases htail2 with h | h
              · rw [h]
                rfl
              · cases r2 with
                | nil => rfl
                | cons a t =>
                  have ha : a = '/' := by simpa using h
                  rw [List.dropWhile_cons_of_neg (by simp [ha])]
            rw [htw, hdw]
            rcases htail2 with h | h
            · rw [h]
              rfl
            · rw [splitNE_slash h]
          rw [hsplit, specStack_dotdot]
        · -- the ordinary-segment branch of the loop
          have hncond2 : ¬ (('/' :: flatSegs e stack ++ c :: r).getD
              (1 + (flatSegs e stack).length) ' ' = '.' ∧
              ('/' :: flatSegs e stack ++ c :: r).getD
                (1 + (flatSegs e stack).length + 1) ' ' = '.' ∧
              (('/' :: flatSegs e stack ++ c :: r).length ≤
                  1 + (flatSegs e stack).length + 2 ∨
                ('/' :: flatSegs e stack ++ c :: r).getD
                  (1 + (flatSegs e stack).length + 2) ' ' = '/')) := by
            rintro ⟨h1, h2, h3⟩
            apply hc2
            rw [hp0] at h1
            rw [hp1] at h2
            refine ⟨h1, (hgdz _ '.' (by decide)).mp h2, ?_⟩
            rcases h3 with h | h
            · left
              rw [hblen] at h
              simp only [List.length_cons] at h
              cases r with
              | nil => rfl
              | cons a t =>
                simp only [List.length_cons] at h
                have ht0 : t.length = 0 := by omega
                simp [List.length_eq_zero.mp ht0]
            · right
              rw [hp2] at h
              have hgg : r.getD 1 ' ' = r.tail.getD 0 ' ' := by
                cases r <;> rfl
              rw [hgg] at h
              exact (hgdz _ '/' (by decide)).mp h
          rw [if_neg hncond2]
          obtain ⟨s, hs_def⟩ : ∃ s, (c :: r).takeWhile (fun c => ¬ c = '/') = s :=
            ⟨_, rfl⟩
          obtain ⟨rest2, hr2_def⟩ : ∃ rest2,
              (c :: r).dropWhile (fun c => ¬ c = '/') = rest2 := ⟨_, rfl⟩
          have hsr : s ++ rest2 = c :: r := by
            rw [← hs_def, ← hr2_def]
            exact List.takeWhile_append_dropWhile _ _
          have hs_cons : s = c :: r.takeWhile (fun c => ¬ c = '/') := by
            rw [← hs_def, List.takeWhile_cons_of_pos (by simp [hc])]
          have hs_ne : s ≠ [] := by
            rw [hs_cons]
            exact List.cons_ne_nil _ _
          have hnoslash : '/' ∉ s := by
            rw [← hs_def]
            exact takeWhile_no_slash (c :: r)
          have hslen1 : 1 ≤ s.length := by
            rw [hs_cons]
            simp
          have hdropbuf : ('/' :: flatSegs e stack ++ (c :: r)).drop
              (1 + (flatSegs e stack).length) = c :: r :=
            (drop_pre _ _ _ 0 (by rw [hPlen]; omega)).trans (List.drop_zero _)
          have htw_nil : ∀ t : List Char, t.takeWhile (fun c => ¬ c = '/') = [] →
              t = [] ∨ t.head? = some '/' := by
            intro t ht
            cases t with
            | nil => exact Or.inl rfl
            | cons a t2 =>
              right
              by_cases ha : a = '/'
              · simp [ha]
              · rw [List.takeWhile_cons_of_pos (by simp [ha])] at ht
                exact absurd ht (List.cons_ne_nil _ _)
          have hs1 : s ≠ ['.'] := by
            intro hbad
            rw [hs_cons] at hbad
            injection hbad with hb1 hb2
            exact hc1 ⟨hb1, htw_nil r hb2⟩
          have hs2 : s ≠ ['.', '.'] := by
            intro hbad
            rw [hs_cons] at hbad
            injection hbad with hb1 hb2
            apply hc2
            refine ⟨hb1, ?_, ?_⟩
            · cases r with
              | nil => simp at hb2
              | cons a t =>
                by_cases ha : a = '/'
                · rw [List.takeWhile_cons_of_neg (by simp [ha])] at hb2
                  exact absurd hb2.symm (List.cons_ne_nil _ _)
                · rw [List.takeWhile_cons_of_pos (by simp [ha])] at hb2
                  injection hb2 with hb3 _
                  simp [hb3]
            · cases r with
              | nil => simp at hb2
              | cons a t =>
                by_cases ha : a = '/'
                · rw [List.takeWhile_cons_of_neg (by simp [ha])] at hb2
                  exact absurd hb2.symm (List.cons_ne_nil _ _)
                · rw [List.takeWhile_cons_of_pos (by simp [ha])] at hb2
                  injection hb2 with _ hb4
                  exact (htw_nil t hb4).imp id (fun h => h)
          rw [hdropbuf]
          rcases dropWhile_neg_head (c :: r) with h2nil | h2head
          · -- no further separator: the segment runs to the end of the buffer
            have hs_all : s = c :: r := by
              rw [hr2_def] at h2nil
              rw [← hsr, h2nil, List.append_nil]
            have hfs : findSlash (c :: r) = (c :: r).length := by
              conv_lhs => rw [← hs_all]
              rw [findSlash_all s hnoslash, hs_all]
            rw [hfs]
            rw [if_neg (show ¬ (1 + (flatSegs e stack).length + (c :: r).length <
              ('/' :: flatSegs e stack ++ c :: r).length) from by rw [hblen]; omega)]
            rw [collapseAt_len _ _ (by rw [hblen]),
              canonLoop_at_end2 f _ _ (by rw [hblen])]
            have hsplit : splitNE (c :: r) = [c :: r] := by
              rw [splitNE_seg (List.cons_ne_nil c r) (by simpa using hc)]
              rw [hs_def, hs_all, hr2_def]
              rw [hr2_def] at h2nil
              rw [h2nil, splitNE_nil]
            rw [hsplit, specStack_push stack (c :: r) [] (hs_all ▸ hs1) (hs_all ▸ hs2)]
            show stripTrail ('/' :: flatSegs e stack ++ (c :: r)) =
              assemblePath e (specStack (stack ++ [c :: r]) [])
            rw [show specStack (stack ++ [c :: r]) [] = stack ++ [c :: r] from rfl]
            exact stripTrail_seg e stack (c :: r)
              ⟨List.cons_ne_nil c r, hs_all ▸ hnoslash⟩
          · -- a separator follows: push the segment and continue past it
            rw [hr2_def] at h2head
            obtain ⟨r2, hr2⟩ : ∃ r2, rest2 = '/' :: r2 := by
              cases rest2 with
              | nil => exact Option.noConfusion h2head
              | cons a t =>
                have ha : a = '/' := by simpa using h2head
                exact ⟨t, by rw [ha]⟩
            have hfs : findSlash (c :: r) = s.length := by
              conv_lhs => rw [← hsr]
              exact findSlash_append_slash s rest2 hnoslash (by rw [hr2]; rfl)
            rw [hfs]
            have hlensum : (c :: r).length = s.length + (r2.length + 1) := by
              rw [← hsr, hr2, List.length_append]
              rfl
            rw [if_pos (show 1 + (flatSegs e stack).length + s.length <
              ('/' :: flatSegs e stack ++ c :: r).length from by
                rw [hblen, hlensum]; omega)]
            have hbuf3 : '/' :: flatSegs e stack ++ (c :: r) =
                ('/' :: flatSegs e (stack ++ [s])) ++ r2 := by
              conv_lhs => rw [← hsr, hr2]
              rw [flatSegs_concat]
              simp
            have hP3len : ('/' :: flatSegs e (stack ++ [s])).length =
                1 + (flatSegs e stack).length + s.length + 1 := by
              rw [flatSegs_concat]
              simp
              omega
            rw [hbuf3, collapseAt_pre2 _ _ _ (by rw [hP3len])]
            have hrec := ih e (stack ++ [s]) (r2.dropWhile (fun c => c = '/'))
              (by
                intro x hx
                rcases List.mem_append.mp hx with hx | hx
                · exact hwf x hx
                · rw [List.mem_singleton.mp hx]
                  exact ⟨hs_ne, hnoslash⟩)
              (dropWhile_slash_head r2)
              (by
                have h1 : (r2.dropWhile (fun c => c = '/')).length ≤ r2.length :=
                  List.Sublist.length_le (List.dropWhile_sublist _)
                simp only [List.length_cons] at hlen
                have h2 : r.length + 1 = s.length + (r2.length + 1) := by
                  simpa using hlensum
                omega)
            have hpos : 1 + (flatSegs e (stack ++ [s])).length =
                1 + (flatSegs e stack).length + s.length + 1 := by
              rw [flatSegs_concat]
              simp
              omega
            rw [← hpos, hrec]
            have hsplit : splitNE (c :: r) =
                s :: splitNE (r2.dropWhile (fun c => c = '/')) := by
              rw [splitNE_seg (List.cons_ne_nil c r) (by simpa using hc)]
              rw [hs_def, hr2_def, hr2]
              rw [splitNE_slash (show ('/' :: r2).head? = some '/' from rfl)]
              rw [List.dropWhile_cons_of_pos (by simp)]
            rw [hsplit, specStack_push stack s _ hs1 hs2]


theorem canonLoop_lead (f : Nat) (r1 : List Char) :
    canonLoop (f + 1) ('/' :: '/' :: r1) 1 =
      canonLoop f ('/' :: '/' :: (r1.dropWhile (fun c => c = '/'))) 2 := by
  simp only [canonLoop]
  rw [if_pos (by simp)]
  rw [if_neg (by simp [List.getD_cons_succ, List.getD_cons_zero])]
  rw [if_neg (by simp [List.getD_cons_succ, List.getD_cons_zero])]
  have hd : ('/' :: '/' :: r1).drop 1 = '/' :: r1 := rfl
  have hfs : findSlash ('/' :: r1) = 0 := by simp [findSlash]
  rw [hd, hfs]
  rw [if_pos (by simp)]
  have hcoll : collapseAt ('/' :: '/' :: r1) (1 + 0 + 1) =
      '/' :: '/' :: (r1.dropWhile (fun c => c = '/')) := by
    show collapseAt (['/', '/'] ++ r1) (1 + 0 + 1) = _
    rw [collapseAt_pre2 (['/', '/']) r1 (1 + 0 + 1) rfl]
    rfl
  rw [hcoll]

theorem dropWhile_no_head {l : List Char} (h : ¬ l.head? = some '/') :
    l.dropWhile (fun c => c = '/') = l := by
  cases l with
  | nil => rfl
  | cons a t =>
    have ha : ¬ a = '/' := fun he => h (by simp [he])
    rw [List.dropWhile_cons_of_neg (by simp [ha])]

theorem canon_base (rest0 : List Char) (h : ¬ rest0.head? = some '/') :
    stripTrail (canonLoop (rest0.length + 1) ('/' :: rest0) 1) =
      assemblePath false (specStack [] (splitNE rest0)) := by
  have hspec := canonLoop_spec (rest0.length + 1) false [] rest0 (by simp) h (by omega)
  simpa [flatSegs] using hspec

theorem canonicalize_eq_spec (path : List Char) :
    g_mount_spec_canonicalize_path path = canonSpecPath path := by
  by_cases hhead : path.head? = some '/'
  · obtain ⟨rest0, rfl⟩ : ∃ r, path = '/' :: r := by
      cases path with
      | nil => exact Option.noConfusion hhead
      | cons a t =>
        have ha : a = '/' := by simpa using hhead
        exact ⟨t, by rw [ha]⟩
    rw [g_mount_spec_canonicalize_path]
    simp only [if_pos hhead]
    by_cases h2 : rest0.head? = some '/'
    · obtain ⟨r1, rfl⟩ : ∃ r, rest0 = '/' :: r := by
        cases rest0 with
        | nil => exact Option.noConfusion h2
        | cons a t =>
          have ha : a = '/' := by simpa using h2
          exact ⟨t, by rw [ha]⟩
      have hflen : ('/' :: '/' :: r1).length = (r1.length + 1) + 1 := by
        simp
      rw [hflen, canonLoop_lead (r1.length + 1) r1]
      have hspec := canonLoop_spec (r1.length + 1) true []
        (r1.dropWhile (fun c => c = '/')) (by simp) (dropWhile_slash_head r1)
        (by
          have h1 : (r1.dropWhile (fun c => c = '/')).length ≤ r1.length :=
            List.Sublist.length_le (List.dropWhile_sublist _)
          omega)
      have hbufshow : '/' :: flatSegs true [] ++ r1.dropWhile (fun c => c = '/') =
          '/' :: '/' :: r1.dropWhile (fun c => c = '/') := rfl
      have hposshow : 1 + (flatSegs true ([] : List (List Char))).length = 2 := rfl
      rw [hbufshow, hposshow] at hspec
      rw [hspec]
      show assemblePath true (specStack [] (splitNE (r1.dropWhile (fun c => c = '/')))) =
        canonSpecPath ('/' :: '/' :: r1)
      rw [canonSpecPath]
      have htail : ('/' :: '/' :: r1).tail = '/' :: r1 := rfl
      simp only [if_pos hhead, htail]
      rw [List.dropWhile_cons_of_pos (by simp)]
      simp
    · have hflen : ('/' :: rest0).length = rest0.length + 1 := by simp
      rw [hflen, canon_base rest0 h2]
      rw [canonSpecPath]
      simp only [if_pos hhead]
      have htail : ('/' :: rest0).tail = rest0 := rfl
      rw [htail, dropWhile_no_head h2]
      have hl2 : decide (rest0.head? = some '/') = false := by
        simpa using h2
      simp [hl2]
  · rw [g_mount_spec_canonicalize_path]
    simp only [if_neg hhead]
    have hflen : ('/' :: path).length = path.length + 1 := by simp
    rw [hflen, canon_base path hhead]
    rw [canonSpecPath]
    simp only [if_neg hhead]
    have htail : ('/' :: path).tail = path := rfl
    rw [htail, dropWhile_no_head hhead]
    have hl2 : decide (path.head? = some '/') = false := by
      simpa using hhead
    simp [hl2]

theorem seg_head_ne {s : List Char} (hne : s ≠ []) (hns : '/' ∉ s) :
    ¬ s.head? = some '/' := by
  cases s with
  | nil => exact absurd rfl hne
  | cons c r =>
    simp only [List.head?_cons, Option.some.injEq]
    intro he
    subst he
    exact hns (List.mem_cons_self _ _)

theorem takeWhile_nos_all : ∀ (s : List Char), '/' ∉ s →
    s.takeWhile (fun c => ¬ c = '/') = s
  | [], _ => rfl
  | c :: r, h => by
    have hc : ¬ c = '/' := fun he => h (by rw [← he]; exact List.mem_cons_self _ _)
    rw [List.takeWhile_cons_of_pos (by simp [hc])]
    rw [takeWhile_nos_all r (fun hm => h (List.mem_cons_of_mem _ hm))]

theorem dropWhile_nos_all : ∀ (s : List Char), '/' ∉ s →
    s.dropWhile (fun c => ¬ c = '/') = []
  | [], _ => rfl
  | c :: r, h => by
    have hc : ¬ c = '/' := fun he => h (by rw [← he]; exact List.mem_cons_self _ _)
    rw [List.dropWhile_cons_of_pos (by simp [hc])]
    exact dropWhile_nos_all r (fun hm => h (List.mem_cons_of_mem _ hm))

theorem takeWhile_stop : ∀ (s : List Char) (x : List Char), '/' ∉ s →
    (s ++ '/' :: x).takeWhile (fun c => ¬ c = '/') = s
  | [], x, _ => by
    rw [List.nil_append, List.takeWhile_cons_of_neg (by simp)]
  | c :: r, x, h => by
    have hc : ¬ c = '/' := fun he => h (by rw [← he]; exact List.mem_cons_self _ _)
    rw [List.cons_append, List.takeWhile_cons_of_pos (by simp [hc])]
    rw [takeWhile_stop r x (fun hm => h (List.mem_cons_of_mem _ hm))]

theorem dropWhile_stop : ∀ (s : List Char) (x : List Char), '/' ∉ s →
    (s ++ '/' :: x).dropWhile (fun c => ¬ c = '/') = '/' :: x
  | [], x, _ => by
    rw [List.nil_append, List.dropWhile_cons_of_neg (by simp)]
  | c :: r, x, h => by
    have hc : ¬ c = '/' := fun he => h (by rw [← he]; exact List.mem_cons_self _ _)
    rw [List.cons_append, List.dropWhile_cons_of_pos (by simp [hc])]
    exact dropWhile_stop r x (fun hm => h (List.mem_cons_of_mem _ hm))

theorem joinSlash_head : ∀ (s : List Char) (rest : List (List Char)), s ≠ [] →
    (joinSlash (s :: rest)).head? = s.head?
  | _, [], _ => rfl
  | s, r :: rs, h => by
    show (s ++ '/' :: joinSlash (r :: rs)).head? = s.head?
    exact List.head?_append_of_ne_nil _ h

theorem splitNE_join : ∀ (stack : List (List Char)), (∀ s ∈ stack, segWF s) →
    splitNE (joinSlash stack) = stack
  | [], _ => splitNE_nil
  | [s], h => by
    obtain ⟨hne, hns⟩ := h s (List.mem_cons_self _ _)
    show splitNE s = [s]
    rw [splitNE_seg hne (seg_head_ne hne hns)]
    rw [takeWhile_nos_all s hns, dropWhile_nos_all s hns, splitNE_nil]
  | s :: s2 :: rest, h => by
    obtain ⟨hne, hns⟩ := h s (List.mem_cons_self _ _)
    have hrest : ∀ t ∈ s2 :: rest, segWF t :=
      fun t ht => h t (List.mem_cons_of_mem _ ht)
    have ih := splitNE_join (s2 :: rest) hrest
    show splitNE (s ++ '/' :: joinSlash (s2 :: rest)) = s :: s2 :: rest
    have hne2 : s ++ '/' :: joinSlash (s2 :: rest) ≠ [] := by
      simp
    have hh : ¬ (s ++ '/' :: joinSlash (s2 :: rest)).head? = some '/' := by
      rw [List.head?_append_of_ne_nil _ hne]
      exact seg_head_ne hne hns
    rw [splitNE_seg hne2 hh, takeWhile_stop s _ hns, dropWhile_stop s _ hns]
    rw [splitNE_slash (by simp), List.dropWhile_cons_of_pos (by simp)]
    obtain ⟨hne2x, hns2x⟩ := hrest s2 (List.mem_cons_self _ _)
    have hhead2 : ¬ (joinSlash (s2 :: rest)).head? = some '/' := by
      rw [joinSlash_head s2 rest hne2x]
      exact seg_head_ne hne2x hns2x
    rw [dropWhile_no_head hhead2, ih]

theorem specStack_app : ∀ (segs : List (List Char)) (stack : List (List Char)),
    (∀ s ∈ segs, s ≠ ['.'] ∧ s ≠ ['.', '.']) → specStack stack segs = stack ++ segs
  | [], stack, _ => by simp [specStack]
  | s :: ss, stack, h => by
    obtain ⟨h1, h2⟩ := h s (List.mem_cons_self _ _)
    rw [specStack_push stack s ss h1 h2,
      specStack_app ss (stack ++ [s]) (fun t ht => h t (List.mem_cons_of_mem _ ht))]
    simp

theorem specStack_mem : ∀ (segs : List (List Char)) (stack : List (List Char)),
    (∀ s ∈ stack, segWF s ∧ s ≠ ['.'] ∧ s ≠ ['.', '.']) →
    (∀ s ∈ segs, segWF s) →
    ∀ s ∈ specStack stack segs, segWF s ∧ s ≠ ['.'] ∧ s ≠ ['.', '.']
  | [], stack, hst, _ => by
    intro s hs
    exact hst s hs
  | s :: ss, stack, hst, hsegs => by
    by_cases h1 : s = ['.']
    · subst h1
      rw [specStack_dot]
      exact specStack_mem ss stack hst (fun t ht => hsegs t (List.mem_cons_of_mem _ ht))
    · by_cases h2 : s = ['.', '.']
      · subst h2
        rw [specStack_dotdot]
        exact specStack_mem ss stack.dropLast
          (fun t ht => hst t ((List.dropLast_sublist _).subset ht))
          (fun t ht => hsegs t (List.mem_cons_of_mem _ ht))
      · rw [specStack_push stack s ss h1 h2]
        refine specStack_mem ss (stack ++ [s]) ?_
          (fun t ht => hsegs t (List.mem_cons_of_mem _ ht))
        intro t ht
        rcases List.mem_append.mp ht with hm | hm
        · exact hst t hm
        · have heq : t = s := by simpa using hm
          subst heq
          exact ⟨hsegs t (List.mem_cons_self _ _), h1, h2⟩

theorem splitNE_wf : ∀ (n : Nat) (l : List Char), l.length ≤ n →
    ∀ s ∈ splitNE l, segWF s
  | 0, l, hlen => by
    have hnil : l = [] := List.eq_nil_of_length_eq_zero (Nat.le_zero.mp hlen)
    subst hnil
    rw [splitNE_nil]
    intro s hs
    exact absurd hs (List.not_mem_nil s)
  | n + 1, l, hlen => by
    by_cases hnil : l = []
    · subst hnil
      rw [splitNE_nil]
      intro s hs
      exact absurd hs (List.not_mem_nil s)
    · obtain ⟨c, r, rfl⟩ : ∃ c r, l = c :: r := by
        cases l with
        | nil => exact absurd rfl hnil
        | cons c r => exact ⟨c, r, rfl⟩
      simp only [List.length_cons] at hlen
      by_cases hh : (c :: r).head? = some '/'
      · have hc : c = '/' := by simpa using hh
        subst hc
        rw [splitNE_slash hh, List.dropWhile_cons_of_pos (by simp)]
        refine splitNE_wf n _ ?_
        have h1 : (r.dropWhile (fun c => c = '/')).length ≤ r.length :=
          List.Sublist.length_le (List.dropWhile_sublist _)
        omega
      · rw [splitNE_seg hnil hh]
        intro s hs
        rcases List.mem_cons.mp hs with rfl | hm
        · have hc : ¬ c = '/' := fun he => hh (by simp [he])
          constructor
          · rw [List.takeWhile_cons_of_pos (by simp [hc])]
            exact List.cons_ne_nil _ _
          · exact takeWhile_no_slash _
        · refine splitNE_wf n _ ?_ s hm
          have hc : ¬ c = '/' := fun he => hh (by simp [he])
          rw [List.dropWhile_cons_of_pos (by simp [hc])]
          have h1 : (r.dropWhile (fun c => ¬ c = '/')).length ≤ r.length :=
            List.Sublist.length_le (List.dropWhile_sublist _)
          omega

theorem assemblePath_head (e : Bool) (st : List (List Char)) :
    (assemblePath e st).head? = some '/' := by
  rw [assemblePath]
  by_cases h : st = []
  · simp [h]
  · simp [h]

theorem canonSpec_assemble (e : Bool) (st : List (List Char))
    (hst : ∀ s ∈ st, segWF s ∧ s ≠ ['.'] ∧ s ≠ ['.', '.']) :
    canonSpecPath (assemblePath e st) = assemblePath e st := by
  cases st with
  | nil =>
    have h1 : assemblePath e [] = ['/'] := by
      rw [assemblePath]
      simp
    rw [h1, canonSpecPath]
    simp [splitNE_nil, specStack, assemblePath]
  | cons s0 st' =>
    obtain ⟨hne0, hns0⟩ := (hst s0 (List.mem_cons_self _ _)).1
    have hJne : ¬ (joinSlash (s0 :: st')).head? = some '/' := by
      rw [joinSlash_head s0 st' hne0]
      exact seg_head_ne hne0 hns0
    have hsplit : splitNE (joinSlash (s0 :: st')) = s0 :: st' :=
      splitNE_join (s0 :: st') (fun t ht => (hst t ht).1)
    have happ : specStack [] (s0 :: st') = s0 :: st' := by
      rw [specStack_app (s0 :: st') [] (fun t ht => (hst t ht).2), List.nil_append]
    cases e with
    | false =>
      have hA : assemblePath false (s0 :: st') = '/' :: joinSlash (s0 :: st') := by
        rw [assemblePath]
        simp
      rw [hA]
      have hhead : ('/' :: joinSlash (s0 :: st')).head? = some '/' := rfl
      rw [canonSpecPath]
      simp only [if_pos hhead]
      have htail : ('/' :: joinSlash (s0 :: st')).tail = joinSlash (s0 :: st') := rfl
      rw [htail, dropWhile_no_head hJne, hsplit, happ]
      have hl2 : decide ((joinSlash (s0 :: st')).head? = some '/') = false := by
        simpa using hJne
      simp [hl2, hA]
    | true =>
      have hA : assemblePath true (s0 :: st') = '/' :: '/' :: joinSlash (s0 :: st') := by
        rw [assemblePath]
        simp
      rw [hA]
      have hhead : ('/' :: '/' :: joinSlash (s0 :: st')).head? = some '/' := rfl
      rw [canonSpecPath]
      simp only [if_pos hhead]
      have htail : ('/' :: '/' :: joinSlash (s0 :: st')).tail =
          '/' :: joinSlash (s0 :: st') := rfl
      rw [htail, List.dropWhile_cons_of_pos (by simp), dropWhile_no_head hJne,
        hsplit, happ]
      have hl2 : decide (('/' :: joinSlash (s0 :: st')).head? = some '/') = true := by
        simp
      simp [hl2, hA]

theorem canonSpec_idem (p : List Char) :
    canonSpecPath (canonSpecPath p) = canonSpecPath p := by
  have hwf : ∀ s ∈ specStack []
      (splitNE (((if p.head? = some '/' then p else '/' :: p).tail).dropWhile
        (fun c => c = '/'))),
      segWF s ∧ s ≠ ['.'] ∧ s ≠ ['.', '.'] :=
    specStack_mem _ _ (fun s hs => absurd hs (List.not_mem_nil s))
      (splitNE_wf _ _ (le_refl _))
  have h1 : canonSpecPath p =
      assemblePath
        (decide (((if p.head? = some '/' then p else '/' :: p).tail).head? = some '/'))
        (specStack []
          (splitNE (((if p.head? = some '/' then p else '/' :: p).tail).dropWhile
            (fun c => c = '/')))) := rfl
  rw [h1]
  exact canonSpec_assemble _ _ hwf

theorem canonSpec_head (p : List Char) :
    (canonSpecPath p).head? = some '/' := by
  have h1 : canonSpecPath p =
      assemblePath
        (decide (((if p.head? = some '/' then p else '/' :: p).tail).head? = some '/'))
        (specStack []
          (splitNE (((if p.head? = some '/' then p else '/' :: p).tail).dropWhile
            (fun c => c = '/')))) := rfl
  rw [h1]
  exact assemblePath_head _ _

/-- C5: the canonicalizer always returns a slash-led path equal to the
segment-stack normal form (`.` removed, `..` pops clamped at the root,
interior slash runs collapsed, one trailing slash stripped), and the three
listed examples hold; but the claim that every run of `/` collapses to one
is wrong for a run at the very start: the loop keeps one extra leading
separator, so a leading run of two or more slashes yields a path starting
with exactly `//`. -/
theorem claim_C5_theorem :
    (∀ p : List Char, g_mount_spec_canonicalize_path p = canonSpecPath p) ∧
    (∀ p : List Char, (g_mount_spec_canonicalize_path p).head? = some '/') ∧
    g_mount_spec_canonicalize_path ("a/./b/../c".data) = "/a/c".data ∧
    g_mount_spec_canonicalize_path ("/a//b///c/".data) = "/a/b/c".data ∧
    g_mount_spec_canonicalize_path ("../../x".data) = "/x".data ∧
    g_mount_spec_canonicalize_path ("//x".data) = "//x".data ∧
    g_mount_spec_canonicalize_path ("///x".data) = "//x".data := by
  refine ⟨canonicalize_eq_spec, ?_, by decide, by decide, by decide, by decide, by decide⟩
  intro p
  rw [canonicalize_eq_spec]
  exact canonSpec_head p

/-- C5 counterexample: on the input `//x` the canonicalizer returns `//x`
itself — the two adjacent leading slashes survive — refuting the claim
that every run of consecutive slashes is collapsed to a single one. -/
theorem claim_C5_counterexample :
    g_mount_spec_canonicalize_path ("//x".data) = "//x".data ∧
    hasDoubleSlash (g_mount_spec_canonicalize_path ("//x".data)) = true ∧
    ¬ g_mount_spec_canonicalize_path ("//x".data) = "/x".data := by
  exact ⟨by decide, by decide, by decide⟩

/-- C9: canonicalization is idempotent — applying
`g_mount_spec_canonicalize_path` to its own output returns that output
unchanged, for every input string. -/
theorem claim_C9_theorem (p : List Char) :
    g_mount_spec_canonicalize_path (g_mount_spec_canonicalize_path p) =
      g_mount_spec_canonicalize_path p := by
  rw [canonicalize_eq_spec p, canonicalize_eq_spec (canonSpecPath p)]
  exact canonSpec_idem p
